import Mathlib

/-!
Verification development for the git-sidecar tool (`src/main.py`).

The Python source is shallowly embedded as follows.

* Python `str` values are Lean `String`s; the character-level operations
  (slicing, `split`, `strip`, `startswith`, ...) are modelled on `List Char`
  (abbreviated `Chars`) and wrapped back into `String`, so every string
  function is executable and provable by list reasoning.
* `configparser` state is modelled by `ConfigData`, an ordered list of
  sections, each an ordered list of `(key, value)` options.  As in
  `configparser`, option names are passed through `optionxform = str.lower`
  on every write and lookup (section names are case sensitive), new sections
  and new options are appended at the end, and the on-disk INI file is
  modelled by its list of lines (`cmSaveLines` / `cmLoadLines` mirror
  `ConfigParser.write` / `ConfigParser.read` for the fragment the tool
  emits: `[section]` headers, `key = value` lines, blank separators, `#`/`;`
  comment lines).  `BasicInterpolation` of `%` signs in values is not
  modelled; theorems that read stored values therefore carry a
  `percentFree` hypothesis restricting to `%`-free values, which is the
  only kind the tool itself ever writes.
* The filesystem is `FS`: an ordered list of entries, each a path (as its
  list of components) together with an `isDir` flag.  Directory enumeration
  order (`Path.iterdir`) is the list order; `mkdir(parents=True,
  exist_ok=True)` appends the missing ancestors in root-to-leaf order.
  Path strings are turned into components exactly the way `pathlib`
  normalises them (splitting on `/`, dropping empty segments, keeping a
  root marker), and `Path / name` with an empty name is the identity, as in
  `pathlib`.  Where the code compares or returns `Path` *objects*
  (`get_workspace_base`), `pathEq` and `pathStr` model `pathlib`'s
  equality and `str()`: duplicate and trailing separators and `.` segments
  are insignificant, the two-leading-separator root is distinct, and
  Windows comparison folds case and accepts `\`; `pathStr` renders with
  `/` like every join of this model, and Windows drive/UNC anchor anatomy
  is not parsed out.
* The `urlparse` steps of `normalize_url` are modelled for `http`/`https`
  URLs: the netloc runs to the first of `/?#`, the path to the first of
  `?#`, and the path then loses the `;`-parameters of its last segment
  (`_splitparams`, active for both schemes), before the code strips `/`
  from the path's ends and `:port` from the netloc.
* Subprocess calls (`git remote get-url origin`, `git remote -v`) are
  modelled by a `GitEnv` record holding their outcomes as `Except` values
  (`.error` is a non-zero exit or a missing executable); `git remote -v`
  output is modelled after parsing, as the ordered association list of
  remotes.  `Path.resolve` and `hashlib.md5(...).hexdigest()` are abstract
  functions of the environment: the claims depend only on how their results
  are used, never on the digest internals.
* Compiled regular expressions appear in two places.  `BranchAnalyzer`
  compiles the configured fragments; the pattern *string* construction
  (including `re.escape` of the separator, with the Python 3.7+ special
  character set) is modelled exactly, and the matching semantics of the
  compiled *default* pattern `^([A-Za-z]{1,10})([-_])(\d+)([-_])(.*)$` is
  modelled by `extractTicketChars`: because the three character classes are
  pairwise disjoint, Python's greedy backtracking admits at most one group
  split, namely maximal letter run / separator / maximal digit run /
  separator / rest, where `.` excludes `'\n'` and `$` also matches just
  before a final newline.  `\d` is modelled as the ASCII digits (the
  non-ASCII Unicode decimal digits are not modelled).  The
  `find_existing_ticket_dir` pattern `^pfx[-_]num([-_].*)?$` with
  `re.IGNORECASE` and `re.escape`d literals is modelled by
  `ticketDirMatch`, lower-casing both sides (ASCII case folding).
-/

set_option maxRecDepth 8000

namespace GitSidecar

/-! ### Basic character-list helpers (Python `str` primitives) -/

abbrev Chars := List Char

/-- Python `str.lower` on a character list (ASCII case folding, which is all
the tool's configuration keys use). -/
def lowerChars (l : Chars) : Chars := l.map Char.toLower

/-- `configparser`'s `optionxform`, i.e. `str.lower`, applied to a key. -/
def lowerKey (s : String) : String := ⟨lowerChars s.data⟩

/-- Python `str.strip()` on a character list (whitespace from both ends). -/
def trimChars (l : Chars) : Chars :=
  ((l.dropWhile Char.isWhitespace).reverse.dropWhile Char.isWhitespace).reverse

/-- Python `str.strip()` on a string. -/
def trimStr (s : String) : String := ⟨trimChars s.data⟩

/-- Python `str.strip(c)` for a single character `c` (both ends). -/
def trimCharList (c : Char) (l : Chars) : Chars :=
  ((l.dropWhile (fun a => a == c)).reverse.dropWhile (fun a => a == c)).reverse

/-- Python `str.strip(set)` for a set of characters (both ends); used for
`strip('. ')` in the directory-name sanitizer. -/
def trimCharSet (cs : Chars) (l : Chars) : Chars :=
  ((l.dropWhile (fun a => cs.contains a)).reverse.dropWhile (fun a => cs.contains a)).reverse

/-- Python `s.split(c, 1)`: the part before the first occurrence of `c` and
the part after it. -/
def splitFirstAt (c : Char) (l : Chars) : Chars × Chars :=
  (l.takeWhile (fun a => a != c), (l.dropWhile (fun a => a != c)).drop 1)

/-- Python `str.startswith` (on the underlying characters). -/
def strStartsWith (s pre : String) : Bool := pre.data.isPrefixOf s.data

/-- Python `str.endswith` (on the underlying characters). -/
def strEndsWith (s suf : String) : Bool := suf.data.isSuffixOf s.data

/-- Python `str.replace(pat, '')` for a non-empty pattern: remove the
non-overlapping occurrences of `pat` left to right. -/
def removeAll (pat : Chars) : Chars → Chars
  | [] => []
  | c :: rest =>
    if h : pat ≠ [] ∧ pat.isPrefixOf (c :: rest) then
      removeAll pat ((c :: rest).drop pat.length)
    else c :: removeAll pat rest
termination_by l => l.length
decreasing_by
· have h1 : 1 ≤ pat.length := by
    cases pat with
    | nil => exact absurd rfl h.1
    | cons a r => simp
  simp only [List.length_drop, List.length_cons]
  omega
· simp

/-! ### `RepoIdentifier.normalize_url` (src/main.py lines 87-123) -/

/-- First step of `normalize_url`: `if url.endswith('.git'): url = url[:-4]`. -/
def stripGitSuffix (url : Chars) : Chars :=
  if (".git".data).isSuffixOf url then url.take (url.length - 4) else url

/-- `urlparse`'s `_splitparams` applied to the path of an `http`/`https`
URL (both schemes use parameters): the part of the path before its
parameters, which begin at the first `;` inside the last `/`-separated
segment.  A path without a `;` in its last segment is returned whole. -/
def dropParams (p : Chars) : Chars :=
  if p.contains '/' then
    let lastSeg := (p.reverse.takeWhile (fun a => a != '/')).reverse
    p.take (p.length - lastSeg.length) ++ lastSeg.takeWhile (fun a => a != ';')
  else p.takeWhile (fun a => a != ';')

/-- The `http://`/`https://` branch of `normalize_url` applied to the URL
with its scheme removed (`urlparse`'s extraction: the netloc runs to the
first of `/?#`, the path to the first of `?#` and then loses its
`;`-parameters, the code strips `/` from both ends of the path and drops
`:port` from the netloc). -/
def httpRest (rest : Chars) : Chars :=
  let netloc := rest.takeWhile (fun c => c != '/' && c != '?' && c != '#')
  let after := rest.drop netloc.length
  let path0 := after.takeWhile (fun c => c != '?' && c != '#')
  let path := trimCharList '/' (dropParams path0)
  let host := if netloc.contains ':' then netloc.takeWhile (fun a => a != ':') else netloc
  if path.isEmpty then host else host ++ '/' :: path

/-- Body of `normalize_url` after the `.git` strip: the `git@` SSH-shorthand
branch, the `http://`/`https://` branch, and the bare pass-through. -/
def normalizeBody (url : Chars) : Chars :=
  if ("git@".data).isPrefixOf url then
    let u := url.drop 4
    if u.contains ':' then
      let hp := splitFirstAt ':' u
      hp.1 ++ '/' :: hp.2
    else u
  else if ("http://".data).isPrefixOf url || ("https://".data).isPrefixOf url then
    httpRest (if ("http://".data).isPrefixOf url then url.drop 7 else url.drop 8)
  else url

/-- `RepoIdentifier.normalize_url` on character lists. -/
def normalizeUrlChars (url : Chars) : Chars :=
  if url.isEmpty then [] else normalizeBody (stripGitSuffix url)

/-- `RepoIdentifier.normalize_url`.  A pure function of its argument, as in
the source (no I/O). -/
def normalize_url (url : String) : String := ⟨normalizeUrlChars url.data⟩

/-! ### Configuration store (`ConfigManager`, src/main.py lines 191-371) -/

abbrev ConfigOptions := List (String × String)

abbrev ConfigData := List (String × ConfigOptions)

/-- `ConfigManager`: the parsed configuration plus the instance `_repo_id`. -/
structure ConfigManager where
  data : ConfigData
  repoId : Option String

/-- `configparser.has_section` / section access: first section with the
given (case-sensitive) name. -/
def findSection : ConfigData → String → Option ConfigOptions
  | [], _ => none
  | (s, os) :: rest, q => if s = q then some os else findSection rest q

/-- Option lookup inside a section: the query key goes through
`optionxform` (stored keys already did, on write or load). -/
def lookupOpt : ConfigOptions → String → Option String
  | [], _ => none
  | (k, v) :: rest, q => if k = lowerKey q then some v else lookupOpt rest q

/-- Combined section + option lookup (`has_section`/`has_option`/`get`). -/
def sectionLookup (cfg : ConfigData) (s k : String) : Option String :=
  match findSection cfg s with
  | some os => lookupOpt os k
  | none => none

/-- `effective_repo_id = repo_id if repo_id is not None else self._repo_id`. -/
def effRepo (repo_id instRepo : Option String) : Option String :=
  match repo_id with
  | some r => some r
  | none => instRepo

/-- `ConfigManager.get` (lines 264-295): repository override (only when the
effective repo id is truthy, i.e. non-empty) → default section → `fallback
or ''`. -/
def ConfigManager.get (cm : ConfigManager) (sec key : String) (fallback : Option String)
    (repo_id : Option String) : String :=
  let eff := effRepo repo_id cm.repoId
  let fromRepo : Option String :=
    match eff with
    | some r =>
      if r = "" then none
      else
        match findSection cm.data ("repo:" ++ r) with
        | some os => lookupOpt os (sec ++ "." ++ key)
        | none => none
    | none => none
  match fromRepo with
  | some v => v
  | none =>
    match findSection cm.data ("default." ++ sec) with
    | some os =>
      match lookupOpt os key with
      | some v => v
      | none => fallback.getD ""
    | none => fallback.getD ""

/-- The `(target_section, target_key)` choice of `ConfigManager.set`
(lines 314-340): default namespace with the bare key when `default=True`,
repository namespace with the dot-qualified key when `repo_id` is truthy,
otherwise the legacy flat section named exactly by the category. -/
def ConfigManager.setTarget (sec key : String) (repo_id : Option String) (deflt : Bool) :
    String × String :=
  if deflt then ("default." ++ sec, key)
  else
    match repo_id with
    | some r => if r = "" then (sec, key) else ("repo:" ++ r, sec ++ "." ++ key)
    | none => (sec, key)

/-- `dict`-style option update: existing key overwritten in place, new key
appended at the end. -/
def setOptInList : ConfigOptions → String → String → ConfigOptions
  | [], k, v => [(k, v)]
  | (k1, v1) :: rest, k, v =>
    if k1 = k then (k, v) :: rest else (k1, v1) :: setOptInList rest k v

/-- `add_section` (appended at the end) if missing, then option update. -/
def setOption : ConfigData → String → String → String → ConfigData
  | [], s, k, v => [(s, [(k, v)])]
  | (s1, os) :: rest, s, k, v =>
    if s1 = s then (s1, setOptInList os k v) :: rest else (s1, os) :: setOption rest s k v

/-- `ConfigManager.set`: the stored key goes through `optionxform` as in
`configparser.set`.  The subsequent `_save_config`/`_load_config` pair is
modelled by `cmSaveLines`/`cmLoadLines` below. -/
def ConfigManager.set (cm : ConfigManager) (sec key value : String) (repo_id : Option String)
    (deflt : Bool) : ConfigManager :=
  let t := ConfigManager.setTarget sec key repo_id deflt
  { cm with data := setOption cm.data t.1 (lowerKey t.2) value }

/-- All values stored in the configuration are free of `%`: the precondition
under which `configparser`'s `BasicInterpolation` is the identity, so that
the interpolation-free model is faithful. -/
def percentFree (cfg : ConfigData) : Bool :=
  cfg.all (fun so => so.2.all (fun kv => !kv.2.data.contains '%'))

/-! ### Configuration file serialization (`_save_config` / `_load_config`) -/

/-- A `[section]` header line as written by `ConfigParser.write`. -/
def headerLine (s : String) : String := "[" ++ s ++ "]"

/-- A `key = value` option line as written by `ConfigParser.write`. -/
def optLine (k v : String) : String := k ++ " = " ++ v

/-- `ConfigParser.write`: each section as a header, its options, and a
blank separator line.  The file is modelled by its list of lines. -/
def cmSaveLines : ConfigData → List String
  | [] => []
  | (s, os) :: rest =>
    headerLine s :: (os.map (fun kv => optLine kv.1 kv.2) ++ ("" :: cmSaveLines rest))

/-- A blank (whitespace-only) line, skipped by the INI reader. -/
def blankL (s : String) : Bool := (trimChars s.data).isEmpty

/-- A full-line `#` or `;` comment, skipped by the INI reader. -/
def commentL (s : String) : Bool := strStartsWith s "#" || strStartsWith s ";"

/-- A `[...]` section-header line. -/
def isHeaderL (s : String) : Bool := strStartsWith s "[" && strEndsWith s "]"

/-- The section name of a header line: the characters after `[` up to the
first `]`, as in `configparser`'s `SECTCRE`. -/
def headerNameL (s : String) : String := ⟨(s.data.drop 1).takeWhile (fun c => c != ']')⟩

/-- Split an option line at the first `=` or `:` delimiter, stripping both
sides and passing the key through `optionxform`, as `configparser.read`
does. -/
def splitKV (s : String) : Option (String × String) :=
  let pre := s.data.takeWhile (fun c => c != '=' && c != ':')
  if pre.length = s.data.length then none
  else some (lowerKey (trimStr ⟨pre⟩), trimStr ⟨s.data.drop (pre.length + 1)⟩)

/-- The INI reader: a fold over the lines carrying the section under
construction.  Option lines before any section header are ignored (the
serialized files this tool reads always begin with a header). -/
def parseGo (cur : Option (String × ConfigOptions)) : List String → ConfigData
  | [] =>
    match cur with
    | none => []
    | some so => [so]
  | l :: rest =>
    if blankL l || commentL l then parseGo cur rest
    else if isHeaderL l then
      match cur with
      | none => parseGo (some (headerNameL l, [])) rest
      | some so => so :: parseGo (some (headerNameL l, [])) rest
    else
      match splitKV l with
      | some kv =>
        match cur with
        | some nmos => parseGo (some (nmos.1, nmos.2 ++ [kv])) rest
        | none => parseGo none rest
      | none => parseGo cur rest

/-- `_load_config` on a fresh `ConfigParser`: parse the file's lines. -/
def cmLoadLines (lines : List String) : ConfigData := parseGo none lines

/-- Well-formedness of a stored option key: non-empty, no newline and no
delimiter character, not starting like a comment, header or continuation
line, strip-invariant, and already in `optionxform` (lower-case) form —
exactly the keys `configparser` itself produces. -/
def optKeyOK (k : String) : Bool :=
  !k.data.isEmpty && k.data.all (fun c => c != '\n' && c != '=' && c != ':') &&
    (k.data.getD 0 ' ' != '[') && (k.data.getD 0 ' ' != '#') && (k.data.getD 0 ' ' != ';') &&
    (trimChars k.data == k.data) && (lowerChars k.data == k.data)

/-- Well-formedness of a stored value: single-line and strip-invariant. -/
def valOK (v : String) : Bool :=
  v.data.all (fun c => c != '\n') && (trimChars v.data == v.data)

/-- Well-formedness of a section name: non-empty, single-line, no `]`. -/
def secOK (s : String) : Bool :=
  !s.data.isEmpty && s.data.all (fun c => c != '\n' && c != ']')

/-- Well-formedness of a whole configuration: every section and option can
be written to the INI file and read back verbatim. -/
def configWF (cfg : ConfigData) : Bool :=
  cfg.all (fun so => secOK so.1 && so.2.all (fun kv => optKeyOK kv.1 && valOK kv.2))

/-- The seeded default configuration written by `_create_default_config`
(lines 228-253). -/
def defaultConfigData : ConfigData :=
  [("default.paths",
     [("workspace_base", "~/tickets"), ("tools_library_path", "~/tools")]),
   ("default.branches",
     [("standard_branches", "main, master, develop, stage, production")]),
   ("default.ticket_pattern",
     [("prefix_pattern", "[A-Za-z]\x7b1,10\x7d"), ("separator", "[-_]"),
      ("number_pattern", "\\d+"), ("description_pattern", ".*")]),
   ("default.links",
     [("current_ticket_link_locations", "~/Downloads"),
      ("current_ticket_link_filename", "CurrentTicket"),
      ("tools_to_link", "notebooks, scripts, utils")])]

/-! ### `BranchAnalyzer` (src/main.py lines 440-493) -/

/-- The characters Python 3.7+ `re.escape` prefixes with a backslash. -/
def reSpecialChars : Chars :=
  ['(', ')', '[', ']', '\x7b', '\x7d', '?', '*', '+', '-', '|', '^', '$',
   '\\', '.', '&', '~', '#', ' ', '\t', '\n', '\r', '\x0b', '\x0c']

/-- Python `re.escape` on a character list. -/
def reEscapeChars : Chars → Chars
  | [] => []
  | c :: rest =>
    if reSpecialChars.contains c then '\\' :: c :: reEscapeChars rest
    else c :: reEscapeChars rest

/-- Python `re.escape`. -/
def reEscape (s : String) : String := ⟨reEscapeChars s.data⟩

/-- The pattern string compiled by `BranchAnalyzer.__init__` (lines
453-461): the separator is kept verbatim when already bracketed, otherwise
`re.escape`d, and the five groups are concatenated into one anchored
pattern. -/
def buildTicketPattern (pfxPat sepVal numPat descPat : String) : String :=
  let sp := if strStartsWith sepVal "[" && strEndsWith sepVal "]" then sepVal else reEscape sepVal
  "^(" ++ pfxPat ++ ")(" ++ sp ++ ")(" ++ numPat ++ ")(" ++ sp ++ ")(" ++ descPat ++ ")$"

/-- The seeded default `prefix_pattern`. -/
def defaultPrefixPattern : String := "[A-Za-z]\x7b1,10\x7d"

/-- The seeded default `separator`. -/
def defaultSeparator : String := "[-_]"

/-- The seeded default `number_pattern`. -/
def defaultNumberPattern : String := "\\d+"

/-- The seeded default `description_pattern`. -/
def defaultDescriptionPattern : String := ".*"

/-- Matching semantics of the compiled default pattern
`^([A-Za-z]{1,10})([-_])(\d+)([-_])(.*)$` under Python `re.match`.
Because letters, `[-_]` and digits are pairwise disjoint character
classes, greedy matching with backtracking admits at most one successful
split: the prefix group is the maximal leading letter run (failing if its
length is outside 1..10), each separator is the single following
character, the number group is the maximal digit run, and the description
group takes the remaining characters up to but excluding a newline; `$`
accepts the end of the string or a position just before a terminal
newline.  Returns the three captured groups. -/
def extractTicketChars (name : Chars) : Option (Chars × Chars × Chars) :=
  let pre := name.takeWhile (fun c => c.isUpper || c.isLower)
  if pre.length < 1 || 10 < pre.length then none
  else
    match name.drop pre.length with
    | [] => none
    | c :: r1 =>
      if c == '-' || c == '_' then
        let num := r1.takeWhile Char.isDigit
        if num.length < 1 then none
        else
          match r1.drop num.length with
          | [] => none
          | c2 :: r2 =>
            if c2 == '-' || c2 == '_' then
              let desc := r2.takeWhile (fun a => a != '\n')
              match r2.drop desc.length with
              | [] => some (pre, num, desc)
              | ['\n'] => some (pre, num, desc)
              | _ => none
            else none
      else none

/-- The dictionary returned by `BranchAnalyzer.extract_ticket_info`: the
fields model the keys `'prefix'`, `'number'`, `'description'` and
`'full'`. -/
structure TicketInfo where
  pfx : String
  num : String
  desc : String
  full : String
deriving DecidableEq

/-- `BranchAnalyzer.extract_ticket_info` (lines 467-480) for the default
compiled pattern: the captured groups 1, 3 and 5 plus the raw branch name
on a match, `none` otherwise. -/
def extract_ticket_info (branch_name : String) : Option TicketInfo :=
  match extractTicketChars branch_name.data with
  | some pnd => some ⟨⟨pnd.1⟩, ⟨pnd.2.1⟩, ⟨pnd.2.2⟩, branch_name⟩
  | none => none

/-! ### `DirectoryManager` sanitizers (src/main.py lines 522-539, 581-624) -/

/-- The invalid filename characters replaced by underscores. -/
def invalidChars : Chars := ['<', '>', ':', '"', '/', '\\', '|', '?', '*']

/-- Replace every invalid character by an underscore (the sequence of
single-character `str.replace` calls is this single map, since none of the
invalid characters is an underscore). -/
def replaceInvalid (l : Chars) : Chars :=
  l.map (fun c => if invalidChars.contains c then '_' else c)

/-- The Windows reserved device names. -/
def reservedNames : List String :=
  ["CON", "PRN", "AUX", "NUL",
   "COM1", "COM2", "COM3", "COM4", "COM5", "COM6", "COM7", "COM8", "COM9",
   "LPT1", "LPT2", "LPT3", "LPT4", "LPT5", "LPT6", "LPT7", "LPT8", "LPT9"]

/-- The estimated workspace-path length used on the legacy-path-limit
platform (the source assigns the constant `100` in both the `try` and the
`except` arm). -/
def workspace_path_len : Nat := 100

/-- The computed Windows name-length cap `max(50, 260 - workspace_path_len - 50)`. -/
def windowsMaxNameLen : Nat := max 50 (260 - workspace_path_len - 50)

/-- `DirectoryManager.sanitize_directory_name` on characters: invalid
characters replaced, `strip('. ')`, reserved device names prefixed with an
underscore, then the platform-dependent truncation. -/
def sanitizeDirChars (isWindows : Bool) (name : Chars) : Chars :=
  let s := replaceInvalid name
  let s := trimCharSet ['.', ' '] s
  let s := if reservedNames.contains ⟨s.map Char.toUpper⟩ then '_' :: s else s
  if isWindows then
    if windowsMaxNameLen < s.length then s.take windowsMaxNameLen else s
  else
    if 255 < s.length then s.take 255 else s

/-- `DirectoryManager.sanitize_directory_name`; the `platform.system() ==
'Windows'` test is the `isWindows` argument. -/
def sanitize_directory_name (isWindows : Bool) (name : String) : String :=
  ⟨sanitizeDirChars isWindows name.data⟩

/-- `DirectoryManager._sanitize_repo_name` (lines 522-539): drop the
`local/` marker (Python `str.replace` removes every occurrence after the
`startswith` check), replace invalid characters and slashes with
underscores, truncate to 255 characters. -/
def sanitizeRepoName (repo_id : String) : String :=
  let name := if strStartsWith repo_id "local/" then removeAll ("local/".data) repo_id.data
              else repo_id.data
  let name := replaceInvalid name
  let name := name.map (fun c => if c == '/' then '_' else c)
  if 255 < name.length then ⟨name.take 255⟩ else ⟨name⟩

/-! ### Filesystem model and `DirectoryManager` directory operations -/

/-- Ambient platform facts: the home directory (for `os.path.expanduser`
and `Path.home()`) and the `platform.system() == 'Windows'` flag. -/
structure Env where
  home : String
  isWindows : Bool

/-- The filesystem: entries in creation/enumeration order, each a path
given by its component list, with an `is_dir` flag. -/
abbrev FS := List (List String × Bool)

/-- Split a path string into its non-empty `/`-separated segments,
accumulating the current segment in reverse. -/
def segsAux (cur : Chars) : Chars → List String
  | [] => if cur.isEmpty then [] else [⟨cur.reverse⟩]
  | c :: r =>
    if c = '/' then
      if cur.isEmpty then segsAux [] r else ⟨cur.reverse⟩ :: segsAux [] r
    else segsAux (c :: cur) r

/-- `pathlib` components of a path string: a root marker for absolute
paths followed by the non-empty segments (duplicate separators collapse,
as in `PurePath`). -/
def pathComponents (p : String) : List String :=
  (if p.data.head? = some '/' then ["/"] else []) ++ segsAux [] p.data

/-- `Path(b) / name` as a string; joining the empty name is the identity,
as in `pathlib`. -/
def pjoin (b name : String) : String :=
  if name = "" then b else b ++ "/" ++ name

/-- A path (by components) exists in the filesystem. -/
def present (fs : FS) (p : List String) : Bool :=
  fs.any (fun e => e.1 == p)

/-- Create a single directory if absent (`exist_ok=True`); new entries are
appended, fixing the enumeration order. -/
def addDir (fs : FS) (p : List String) : FS :=
  if present fs p then fs else fs ++ [(p, true)]

/-- Create every ancestor of `done ++ rest`, extending `done` one
component at a time. -/
def mkdirAllAux (fs : FS) (done : List String) : List String → FS
  | [] => fs
  | c :: r => mkdirAllAux (addDir fs (done ++ [c])) (done ++ [c]) r

/-- `Path.mkdir(parents=True, exist_ok=True)`. -/
def mkdirAll (fs : FS) (pc : List String) : FS := mkdirAllAux fs [] pc

/-- `os.path.expanduser` for the forms the tool uses: a leading `~` or
`~/...` expands to the home directory (the `~user` form is not used by any
configured value and is not modelled). -/
def expanduser (home s : String) : String :=
  if s = "~" then home
  else if strStartsWith s "~/" then home ++ s.drop 1
  else s

/-- `ConfigManager.get_path` (lines 297-304) as the string of the returned
`Path`: the inherited value expanded through `expanduser` when non-empty,
otherwise the raw fallback if truthy, otherwise `Path.home()`. -/
def ConfigManager.get_path (cm : ConfigManager) (home : String) (sec key : String)
    (fallback : Option String) (repo_id : Option String) : String :=
  let eff := effRepo repo_id cm.repoId
  let v := cm.get sec key fallback eff
  if v ≠ "" then expanduser home v
  else
    match fallback with
    | some f => if f ≠ "" then f else home
    | none => home

/-- Separator test for path parsing: `/` everywhere, plus `\` on
Windows. -/
def pathSepB (w : Bool) (c : Char) : Bool := c == '/' || (w && c == '\\')

/-- Non-empty segments of a path string, in order (`pathlib` parsing:
duplicate separators collapse). -/
def pSegsAux (w : Bool) (cur : Chars) : Chars → List String
  | [] => if cur.isEmpty then [] else [⟨cur.reverse⟩]
  | c :: r =>
    if pathSepB w c then
      if cur.isEmpty then pSegsAux w [] r else ⟨cur.reverse⟩ :: pSegsAux w [] r
    else pSegsAux w (c :: cur) r

/-- The root class of a path string under `pathlib`: `0` for a relative
path, `2` for exactly two leading separators (a distinct root on POSIX, a
UNC-style anchor on Windows), `1` otherwise. -/
def pathRootMark (w : Bool) (l : Chars) : Nat :=
  let n := (l.takeWhile (fun c => pathSepB w c)).length
  if n = 0 then 0 else if n = 2 then 2 else 1

/-- `pathlib.Path` equality on the path strings (line 515 compares `Path`
objects, not strings): paths are equal when their root class and their
segment lists agree, after collapsing duplicate separators, ignoring
trailing separators, dropping `.` segments, and (on Windows) folding case
and treating `\` as a separator.  This agrees with `pathlib` on every
POSIX path; Windows drive-letter and UNC-anchor anatomy (e.g. `C:a`
v. `C:\a`, or the `\\host\share` anchor) is not parsed out, so both sides
of a comparison keep such prefixes as ordinary segments, which preserves
the verdict for paths differing only in the respects above. -/
def pathEq (w : Bool) (a b : String) : Bool :=
  let ca := if w then lowerChars a.data else a.data
  let cb := if w then lowerChars b.data else b.data
  pathRootMark w ca == pathRootMark w cb
    && ((pSegsAux w [] ca).filter (fun seg => seg != "."))
      == ((pSegsAux w [] cb).filter (fun seg => seg != "."))

/-- Segments joined by `/`. -/
def joinSegs : List String → String
  | [] => ""
  | s :: rest => if rest.isEmpty then s else s ++ "/" ++ joinSegs rest

/-- `str()` of the `Path` built from a string: the root (with the
two-leading-separator special case) followed by the surviving segments,
`.` for an empty relative path.  Windows rendering with `\` is kept as
`/`, like every path join of this model. -/
def pathStr (w : Bool) (s : String) : String :=
  let mark := pathRootMark w s.data
  let segs := (pSegsAux w [] s.data).filter (fun seg => seg != ".")
  if mark = 0 ∧ segs = [] then "."
  else (if mark = 0 then "" else if mark = 2 then "//" else "/") ++ joinSegs segs

/-- The pure path computation of `DirectoryManager.get_workspace_base`
(lines 502-520): resolve `paths.workspace_base` for the requested repo,
resolve it again with `repo_id=None` (hence through the instance repo id)
and fallback `'~/tickets'`, and append the sanitized repo name exactly
when the requested repo id is truthy and the two resolved values compare
equal as `Path` objects; the function returns the string of the `Path`
object the code returns, hence in normalized form. -/
def workspace_base_path (env : Env) (cm : ConfigManager) (repo_id : Option String) : String :=
  let wb := cm.get_path env.home "paths" "workspace_base" none repo_id
  let dwb := cm.get_path env.home "paths" "workspace_base" (some "~/tickets") none
  match repo_id with
  | some r => if r ≠ "" ∧ pathEq env.isWindows wb dwb = true
              then pjoin (pathStr env.isWindows wb) (sanitizeRepoName r)
              else pathStr env.isWindows wb
  | none => pathStr env.isWindows wb

/-- `DirectoryManager.get_workspace_base`: the resolved path together with
the filesystem after `mkdir(parents=True, exist_ok=True)`. -/
def get_workspace_base (env : Env) (cm : ConfigManager) (fs : FS) (repo_id : Option String) :
    String × FS :=
  let b := workspace_base_path env cm repo_id
  (b, mkdirAll fs (pathComponents b))

/-- Matching of `.*$` after the optional separator: any newline-free run,
with `$` also accepting a position just before one terminal newline. -/
def dotStarEndOk (l : Chars) : Bool :=
  !l.contains '\n' || (l.getLastD ' ' == '\n' && !l.dropLast.contains '\n')

/-- Matching of the trailing `([-_].*)?$` group of the
`find_existing_ticket_dir` pattern against the rest of a name: either
nothing remains (possibly after `$` accepts a position before one final
newline), or a separator followed by a newline-free run. -/
def tailOk : Chars → Bool
  | [] => true
  | c :: rest => ((c == '\n') && rest.isEmpty) || ((c == '-' || c == '_') && dotStarEndOk rest)

/-- The compiled pattern `^{re.escape(prefix)}[-_]{re.escape(number)}([-_].*)?$`
with `re.IGNORECASE` (line 552): both literals are matched
case-insensitively (ASCII folding) and verbatim otherwise; the split is
unique because the literals have fixed length. -/
def ticketDirMatch (pfx num name : Chars) : Bool :=
  let ln := lowerChars name
  let lp := lowerChars pfx
  let lnum := lowerChars num
  if lp.isPrefixOf ln then
    match ln.drop lp.length with
    | [] => false
    | c :: r1 =>
      if c == '-' || c == '_' then
        if lnum.isPrefixOf r1 then tailOk (r1.drop lnum.length) else false
      else false
  else false

/-- One step of the `iterdir` scan of `find_existing_ticket_dir`: a hit is
an `is_dir` entry that is an immediate child of the workspace root whose
name matches the pattern, and the returned value is `workspace_base /
name` as produced by `iterdir`. -/
def childTicketHit (b : String) (bc : List String) (pfx num : Chars)
    (e : List String × Bool) : Option String :=
  if e.2 then
    if e.1.length = bc.length + 1 ∧ bc.isPrefixOf e.1 then
      let n := e.1.getLastD ""
      if ticketDirMatch pfx num n.data then some (pjoin b n) else none
    else none
  else none

/-- `DirectoryManager.find_existing_ticket_dir` (lines 541-560): resolve
and create the workspace root, then return the first matching child
directory in enumeration order, if any, together with the filesystem. -/
def find_existing_ticket_dir (env : Env) (cm : ConfigManager) (fs : FS) (pfx num : String)
    (repo_id : Option String) : Option String × FS :=
  let bfs := get_workspace_base env cm fs repo_id
  (bfs.2.findSome? (childTicketHit bfs.1 (pathComponents bfs.1) pfx.data num.data), bfs.2)

/-- `DirectoryManager.create_ticket_directory` (lines 562-579): resolve the
workspace root, reuse an existing matching directory if one is found,
otherwise create `workspace_base / sanitize_directory_name(branch_name)`
with parents. -/
def create_ticket_directory (env : Env) (cm : ConfigManager) (fs : FS) (branch_name : String)
    (pfx num : String) (repo_id : Option String) : String × FS :=
  let bfs := get_workspace_base env cm fs repo_id
  let exfs := find_existing_ticket_dir env cm bfs.2 pfx num repo_id
  match exfs.1 with
  | some e => (e, exfs.2)
  | none =>
    let sname := sanitize_directory_name env.isWindows branch_name
    let d := pjoin bfs.1 sname
    (d, mkdirAll exfs.2 (pathComponents d))

/-! ### `RepoIdentifier` remote resolution (src/main.py lines 46-168) -/

/-- The ambient git context: the `.git` directory (as path components,
`none` when no repository was found), the outcomes of the two subprocess
calls (`.error` models a non-zero exit or a missing `git` executable), the
parsed `git remote -v` association list in enumeration order, and the
abstract `Path.resolve` and `hashlib.md5(...).hexdigest()` functions. -/
structure GitEnv where
  git_dir : Option (List String)
  originCall : Except Unit String
  remotesCall : Except Unit (List (String × String))
  resolvePath : List String → String
  md5hex : String → String

/-- `RepoIdentifier.get_remote_url('origin')`: `None` without a git
directory, the stripped stdout on success, and `None` on any subprocess
failure. -/
def get_remote_url (env : GitEnv) : Option String :=
  match env.git_dir with
  | none => none
  | some _ =>
    match env.originCall with
    | .ok out => some (trimStr out)
    | .error _ => none

/-- `RepoIdentifier.get_all_remotes`: empty without a git directory or on
any subprocess failure. -/
def get_all_remotes (env : GitEnv) : List (String × String) :=
  match env.git_dir with
  | none => []
  | some _ =>
    match env.remotesCall with
    | .ok rs => rs
    | .error _ => []

/-- The loop of `get_repo_identifier` over non-origin remotes: the first
one whose normalized URL is non-empty. -/
def firstOtherRemote : List (String × String) → Option String
  | [] => none
  | nu :: rest =>
    if nu.1 ≠ "origin" ∧ normalize_url nu.2 ≠ "" then some (normalize_url nu.2)
    else firstOtherRemote rest

/-- `RepoIdentifier._get_local_identifier` (lines 149-168): the sentinel
without a repository, otherwise `local/<repo-root-dirname>-<first 8 hex
characters of the digest of the resolved repo-root path>`. -/
def get_local_identifier (env : GitEnv) : String :=
  match env.git_dir with
  | none => "local/unknown"
  | some gd =>
    let root := gd.dropLast
    "local/" ++ root.getLastD "" ++ "-" ++ (env.md5hex (env.resolvePath root)).take 8

/-- `RepoIdentifier.get_repo_identifier` (lines 125-147): origin first,
then the first other remote with a usable URL, then the local
identifier. -/
def get_repo_identifier (env : GitEnv) : String :=
  let afterOrigin :=
    match firstOtherRemote (get_all_remotes env) with
    | some v => v
    | none => get_local_identifier env
  match get_remote_url env with
  | some u =>
    if u ≠ "" then
      if normalize_url u ≠ "" then normalize_url u else afterOrigin
    else afterOrigin
  | none => afterOrigin

/-! ### Generic list helpers -/

theorem takeWhile_append_all (p : Char → Bool) (l₁ l₂ : Chars) (h : ∀ c ∈ l₁, p c = true) :
    (l₁ ++ l₂).takeWhile p = l₁ ++ l₂.takeWhile p := by
  induction l₁ with
  | nil => simp
  | cons a r ih =>
    have hrest : (r ++ l₂).takeWhile p = r ++ l₂.takeWhile p :=
      ih (fun c hc => h c (by simp [hc]))
    have ha : p a = true := h a (by simp)
    simp only [List.cons_append, List.takeWhile_cons, ha, if_true, hrest]

theorem takeWhile_all (p : Char → Bool) (l : Chars) (h : ∀ c ∈ l, p c = true) :
    l.takeWhile p = l := by
  have := takeWhile_append_all p l [] h
  simpa using this

theorem takeWhile_cons_stop (p : Char → Bool) (a : Char) (l : Chars) (h : p a = false) :
    (a :: l).takeWhile p = [] := by
  simp [List.takeWhile_cons, h]

theorem dropWhile_cons_stop (p : Char → Bool) (a : Char) (l : Chars) (h : p a = false) :
    (a :: l).dropWhile p = a :: l := by
  simp [List.dropWhile_cons, h]

theorem isPrefixOf_append_self (l t : Chars) : l.isPrefixOf (l ++ t) = true := by
  rw [List.isPrefixOf_iff_prefix]
  exact ⟨t, rfl⟩

theorem findSome?_append {α β : Type} (f : α → Option β) (l₁ l₂ : List α) :
    (l₁ ++ l₂).findSome? f = ((l₁.findSome? f).orElse (fun _ => l₂.findSome? f)) := by
  induction l₁ with
  | nil => simp [List.findSome?]
  | cons a r ih =>
    simp only [List.cons_append, List.findSome?]
    cases f a <;> simp [ih, Option.orElse]

/-! ### Claim C2: `normalize_url` -/

theorem stripGitSuffix_append (s : Chars) :
    stripGitSuffix (s ++ ".git".data) = s := by
  have hsuf : (".git".data).isSuffixOf (s ++ ".git".data) = true := by
    rw [List.isSuffixOf_iff_suffix]
    exact ⟨s, rfl⟩
  simp only [stripGitSuffix, hsuf, if_true]
  have hlen : (s ++ ".git".data).length - 4 = s.length := by
    simp [List.length_append]
  rw [hlen]
  exact List.take_left s ".git".data

theorem stripGitSuffix_id {s : Chars} (h : (".git".data).isSuffixOf s = false) :
    stripGitSuffix s = s := by
  simp [stripGitSuffix, h]

theorem normalizeBody_nil : normalizeBody [] = [] := by decide

theorem normalizeUrlChars_eq_body {s : Chars} (h : (".git".data).isSuffixOf s = false) :
    normalizeUrlChars s = normalizeBody s := by
  cases s with
  | nil => simp [normalizeUrlChars, normalizeBody_nil]
  | cons a r =>
    simp only [normalizeUrlChars, List.isEmpty_cons, stripGitSuffix_id h]
    rfl

/-- Auxiliary: the `git@`-branch computation of `normalizeBody`. -/
theorem normalizeBody_ssh (host path : Chars) (hh : host.contains ':' = false) :
    normalizeBody ("git@".data ++ host ++ ':' :: path) = host ++ '/' :: path := by
  have hpre : ("git@".data).isPrefixOf ("git@".data ++ (host ++ ':' :: path)) = true := by
    exact isPrefixOf_append_self _ _
  have hnotmem : ¬ (':' ∈ host) := by
    intro hmem
    rw [← List.elem_iff] at hmem
    have hh2 : List.elem ':' host = false := hh
    rw [hh2] at hmem; exact Bool.noConfusion hmem
  have hallne : ∀ c ∈ host, (c != ':') = true := by
    intro c hc
    have : c ≠ ':' := fun he => hnotmem (he ▸ hc)
    simpa [bne_iff_ne] using this
  simp only [List.append_assoc] at hpre ⊢
  simp only [normalizeBody, hpre, if_true]
  have hdrop : ("git@".data ++ (host ++ ':' :: path)).drop 4 = host ++ ':' :: path := by
    have : ("git@".data).length = 4 := rfl
    rw [← this, List.drop_left]
  rw [hdrop]
  have hcont : (host ++ ':' :: path).contains ':' = true := by
    rw [List.elem_iff]
    simp
  simp only [hcont, if_true]
  have htake : (host ++ ':' :: path).takeWhile (fun a => a != ':') = host := by
    rw [takeWhile_append_all _ _ _ hallne, takeWhile_cons_stop (fun a => a != ':') _ _ (by simp)]
    simp
  have hdropw : (host ++ ':' :: path).dropWhile (fun a => a != ':') = ':' :: path := by
    rw [List.dropWhile_append]
    have h0 : (host.dropWhile (fun a => a != ':')).isEmpty = true := by
      rw [List.dropWhile_eq_nil_iff.2 (fun c hc => by simpa using hallne c hc)]
      rfl
    rw [h0, if_pos rfl, dropWhile_cons_stop (fun a => a != ':') _ _ (by simp)]
  simp [splitFirstAt, htake, hdropw]

theorem trimCharList_slash (path : Chars) (hp : path ≠ []) (hhead : path.head? ≠ some '/')
    (hlast : path.getLast? ≠ some '/') : trimCharList '/' ('/' :: path) = path := by
  obtain ⟨h, t, rfl⟩ : ∃ h t, path = h :: t := by
    cases path with
    | nil => exact absurd rfl hp
    | cons h t => exact ⟨h, t, rfl⟩
  have hh : (h == '/') = false := by
    simp only [List.head?] at hhead
    simpa [beq_iff_eq] using fun he => hhead (by rw [he])
  unfold trimCharList
  rw [List.dropWhile_cons, if_pos (by decide), dropWhile_cons_stop (fun a => a == '/') _ _ hh]
  obtain ⟨lst, rest, hrev⟩ : ∃ lst rest, (h :: t).reverse = lst :: rest :=
    List.exists_cons_of_ne_nil (by simp)
  have hlsthead : (h :: t).reverse.head? = some lst := by rw [hrev]; rfl
  have hlst2 : (h :: t).getLast? = some lst := by
    rw [← List.head?_reverse]; exact hlsthead
  have hlstne : (lst == '/') = false := by
    simpa [beq_iff_eq] using fun he => hlast (by rw [hlst2, he])
  rw [hrev, dropWhile_cons_stop (fun a => a == '/') _ _ hlstne, ← hrev, List.reverse_reverse]

theorem takeWhile_ne_all {p : Chars} {x : Char} (h : ∀ c ∈ p, c ≠ x) :
    p.takeWhile (fun a => a != x) = p :=
  takeWhile_all _ _ (fun c hc => by simpa [bne_iff_ne] using h c hc)

theorem take_len_sub_append {α : Type} (A B : List α) :
    (A ++ B).take ((A ++ B).length - B.length) ++ B = A ++ B := by
  have h1 : (A ++ B).length - B.length = A.length := by simp
  rw [h1, List.take_left]

theorem dropParams_id {p : Chars} (h : ∀ c ∈ p, c ≠ ';') : dropParams p = p := by
  unfold dropParams
  by_cases hc : p.contains '/' = true
  · rw [if_pos hc]
    show p.take (p.length - ((p.reverse.takeWhile (fun a => a != '/')).reverse).length)
        ++ ((p.reverse.takeWhile (fun a => a != '/')).reverse).takeWhile (fun a => a != ';')
      = p
    obtain ⟨B, hB⟩ : ∃ B, (p.reverse.takeWhile (fun a => a != '/')).reverse = B := ⟨_, rfl⟩
    have hsub : ∀ c ∈ B, c ∈ p := by
      intro c hcm
      rw [← hB, List.mem_reverse] at hcm
      exact List.mem_reverse.1 ((List.takeWhile_prefix _).subset hcm)
    have hdecomp : p = (p.reverse.dropWhile (fun a => a != '/')).reverse ++ B := by
      rw [← hB, ← List.reverse_append,
        List.takeWhile_append_dropWhile (fun a => a != '/') p.reverse, List.reverse_reverse]
    rw [hB, takeWhile_ne_all (fun c hcm => h c (hsub c hcm))]
    obtain ⟨A, hA⟩ : ∃ A, (p.reverse.dropWhile (fun a => a != '/')).reverse = A := ⟨_, rfl⟩
    rw [hA] at hdecomp
    subst hdecomp
    exact take_len_sub_append A B
  · rw [if_neg hc]
    exact takeWhile_ne_all h

theorem normalizeBody_eq_httpRest (sch rest : Chars)
    (hs : sch = "http://".data ∨ sch = "https://".data) :
    normalizeBody (sch ++ rest) = httpRest rest := by
  rcases hs with rfl | rfl
  · have hngit : ("git@".data).isPrefixOf ("http://".data ++ rest) = false := by
      show List.isPrefixOf ('g' :: "it@".data) ('h' :: ("ttp://".data ++ rest)) = false
      simp [List.isPrefixOf]
    have hpre : ("http://".data).isPrefixOf ("http://".data ++ rest) = true :=
      isPrefixOf_append_self _ _
    have hdrop : ("http://".data ++ rest).drop 7 = rest := by
      have h7 : ("http://".data).length = 7 := rfl
      rw [← h7, List.drop_left]
    simp only [normalizeBody, hngit, Bool.false_eq_true, if_false, hpre, Bool.true_or, if_true,
      hdrop]
  · have hngit : ("git@".data).isPrefixOf ("https://".data ++ rest) = false := by
      show List.isPrefixOf ('g' :: "it@".data) ('h' :: ("ttps://".data ++ rest)) = false
      simp [List.isPrefixOf]
    have hnhttp : ("http://".data).isPrefixOf ("https://".data ++ rest) = false := by
      show List.isPrefixOf ('h' :: 't' :: 't' :: 'p' :: ':' :: '/' :: '/' :: [])
        ('h' :: 't' :: 't' :: 'p' :: 's' :: (("://".data) ++ rest)) = false
      simp [List.isPrefixOf]
    have hpre : ("https://".data).isPrefixOf ("https://".data ++ rest) = true :=
      isPrefixOf_append_self _ _
    have hdrop : ("https://".data ++ rest).drop 8 = rest := by
      have h8 : ("https://".data).length = 8 := rfl
      rw [← h8, List.drop_left]
    simp only [normalizeBody, hngit, Bool.false_eq_true, if_false, hnhttp, hpre, Bool.false_or,
      Bool.true_eq, if_true, hdrop]

theorem netloc_take (mid path : Chars) (hmid : ∀ c ∈ mid, c ≠ '/' ∧ c ≠ '?' ∧ c ≠ '#') :
    (mid ++ '/' :: path).takeWhile (fun c => c != '/' && c != '?' && c != '#') = mid := by
  have hmidall : ∀ c ∈ mid, (c != '/' && c != '?' && c != '#') = true := by
    intro c hc
    obtain ⟨h1, h2, h3⟩ := hmid c hc
    simp [bne_iff_ne, h1, h2, h3]
  rw [takeWhile_append_all _ _ _ hmidall,
    takeWhile_cons_stop (fun c => c != '/' && c != '?' && c != '#') _ _ (by simp)]
  simp

theorem normalizeBody_http (sch mid path : Chars)
    (hs : sch = "http://".data ∨ sch = "https://".data)
    (hmid : ∀ c ∈ mid, c ≠ '/' ∧ c ≠ '?' ∧ c ≠ '#')
    (hp : path ≠ []) (hpc : ∀ c ∈ path, c ≠ '?' ∧ c ≠ '#')
    (hsemi : ∀ c ∈ path, c ≠ ';')
    (hhead : path.head? ≠ some '/') (hlast : path.getLast? ≠ some '/') :
    normalizeBody (sch ++ mid ++ '/' :: path) =
      (if mid.contains ':' then mid.takeWhile (fun a => a != ':') else mid) ++ '/' :: path := by
  rw [List.append_assoc, normalizeBody_eq_httpRest sch _ hs]
  have hnetloc := netloc_take mid path hmid
  have hafter : (mid ++ '/' :: path).drop mid.length = '/' :: path := List.drop_left _ _
  have hpath0 : ('/' :: path).takeWhile (fun c => c != '?' && c != '#') = '/' :: path := by
    refine takeWhile_all _ _ ?_
    intro c hc
    rcases List.mem_cons.1 hc with rfl | hc
    · simp
    · obtain ⟨h1, h2⟩ := hpc c hc
      simp [bne_iff_ne, h1, h2]
  have hdp : dropParams ('/' :: path) = '/' :: path := by
    refine dropParams_id ?_
    intro c hc
    rcases List.mem_cons.1 hc with rfl | hc
    · decide
    · exact hsemi c hc
  have htrim : trimCharList '/' ('/' :: path) = path := trimCharList_slash path hp hhead hlast
  have hpe : path.isEmpty = false := by
    cases path with
    | nil => exact absurd rfl hp
    | cons a t => rfl
  simp only [httpRest, hnetloc, hafter, hpath0, hdp, htrim, hpe, Bool.false_eq_true,
    if_false]

/-- The `;`-parameter split of `urlparse` inside `normalize_url`: when the
path's last segment carries parameters, the host is joined to the path
with the parameters dropped. -/
theorem normalizeBody_http_params (sch mid p1 p2 : Chars)
    (hs : sch = "http://".data ∨ sch = "https://".data)
    (hmid : ∀ c ∈ mid, c ≠ '/' ∧ c ≠ '?' ∧ c ≠ '#')
    (hp1 : p1 ≠ []) (hp1c : ∀ c ∈ p1, c ≠ '/' ∧ c ≠ ';' ∧ c ≠ '?' ∧ c ≠ '#')
    (hp2c : ∀ c ∈ p2, c ≠ '/' ∧ c ≠ '?' ∧ c ≠ '#') :
    normalizeBody (sch ++ mid ++ '/' :: (p1 ++ ';' :: p2)) =
      (if mid.contains ':' then mid.takeWhile (fun a => a != ':') else mid) ++ '/' :: p1 := by
  rw [List.append_assoc, normalizeBody_eq_httpRest sch _ hs]
  have hnetloc := netloc_take mid (p1 ++ ';' :: p2) hmid
  have hafter : (mid ++ '/' :: (p1 ++ ';' :: p2)).drop mid.length = '/' :: (p1 ++ ';' :: p2) :=
    List.drop_left _ _
  have hpath0 : ('/' :: (p1 ++ ';' :: p2)).takeWhile (fun c => c != '?' && c != '#')
      = '/' :: (p1 ++ ';' :: p2) := by
    refine takeWhile_all _ _ ?_
    intro c hc
    rcases List.mem_cons.1 hc with rfl | hc
    · simp
    rcases List.mem_append.1 hc with hc | hc
    · obtain ⟨h1, h2, h3, h4⟩ := hp1c c hc
      simp [bne_iff_ne, h3, h4]
    rcases List.mem_cons.1 hc with rfl | hc
    · simp
    · obtain ⟨h1, h2, h3⟩ := hp2c c hc
      simp [bne_iff_ne, h2, h3]
  have hdp : dropParams ('/' :: (p1 ++ ';' :: p2)) = '/' :: p1 := by
    unfold dropParams
    have hcont : ('/' :: (p1 ++ ';' :: p2)).contains '/' = true := by
      rw [List.elem_iff]
      simp
    rw [if_pos hcont]
    show ('/' :: (p1 ++ ';' :: p2)).take (('/' :: (p1 ++ ';' :: p2)).length
          - ((('/' :: (p1 ++ ';' :: p2)).reverse.takeWhile (fun a => a != '/')).reverse).length)
        ++ ((('/' :: (p1 ++ ';' :: p2)).reverse.takeWhile
          (fun a => a != '/')).reverse).takeWhile (fun a => a != ';')
      = '/' :: p1
    have hrev : ('/' :: (p1 ++ ';' :: p2)).reverse = (p1 ++ ';' :: p2).reverse ++ ['/'] := by
      simp
    have hnosl : ∀ c ∈ (p1 ++ ';' :: p2).reverse, (c != '/') = true := by
      intro c hc
      rw [List.mem_reverse] at hc
      rcases List.mem_append.1 hc with hc | hc
      · simpa [bne_iff_ne] using (hp1c c hc).1
      rcases List.mem_cons.1 hc with rfl | hc
      · decide
      · simpa [bne_iff_ne] using (hp2c c hc).1
    have htwrev : (('/' :: (p1 ++ ';' :: p2)).reverse).takeWhile (fun a => a != '/')
        = (p1 ++ ';' :: p2).reverse := by
      rw [hrev, takeWhile_append_all _ _ _ hnosl,
        takeWhile_cons_stop (fun a => a != '/') _ _ (by simp)]
      simp
    rw [htwrev, List.reverse_reverse]
    have hlen : ('/' :: (p1 ++ ';' :: p2)).length - (p1 ++ ';' :: p2).length = 1 := by
      simp
    rw [hlen]
    have htake1 : ('/' :: (p1 ++ ';' :: p2)).take 1 = ['/'] := rfl
    rw [htake1]
    have hp1ne : ∀ c ∈ p1, (c != ';') = true := by
      intro c hc
      simpa [bne_iff_ne] using (hp1c c hc).2.1
    rw [takeWhile_append_all _ _ _ hp1ne,
      takeWhile_cons_stop (fun a => a != ';') _ _ (by simp)]
    simp
  have hhead : p1.head? ≠ some '/' := by
    intro hh
    cases p1 with
    | nil => exact Option.noConfusion hh
    | cons a t =>
      have ha : a = '/' := by
        simpa [List.head?] using hh
      exact (hp1c a (by simp)).1 ha
  have hlast : p1.getLast? ≠ some '/' := by
    intro hh
    have hrevh : p1.reverse.head? = some '/' := by
      rw [List.head?_reverse]
      exact hh
    have hmem : '/' ∈ p1 := by
      cases hpr : p1.reverse with
      | nil =>
        rw [hpr] at hrevh
        exact Option.noConfusion hrevh
      | cons a t =>
        rw [hpr] at hrevh
        have ha : a = '/' := by simpa [List.head?] using hrevh
        rw [← List.mem_reverse, hpr, ha]
        simp
    exact (hp1c '/' hmem).1 rfl
  have htrim : trimCharList '/' ('/' :: p1) = p1 := trimCharList_slash p1 hp1 hhead hlast
  have hpe : p1.isEmpty = false := by
    cases p1 with
    | nil => exact absurd rfl hp1
    | cons a t => rfl
  simp only [httpRest, hnetloc, hafter, hpath0, hdp, htrim, hpe, Bool.false_eq_true,
    if_false]

/-- C2 (amended).  `normalize_url` strips one trailing `.git` suffix and
then: rewrites the SSH shorthand to `host/path` only when the user part is
literally `git` (a `user@host:path` URL with any other user passes through
unchanged — see the counterexample); for `http://` and `https://` URLs
returns the host with any `:port` removed, joined by `/` to the
slash-stripped path, where the path first loses any `;`-parameters of its
last segment, as `urlparse` does for the `http` and `https` schemes; and
returns any other already-bare string unchanged.  Scenarios A and B hold,
and the function is pure by construction. -/
theorem claim2_normalize_url :
    (∀ s : Chars, (".git".data).isSuffixOf s = false →
      normalizeUrlChars (s ++ ".git".data) = normalizeUrlChars s)
    ∧ (∀ host path : Chars, host.contains ':' = false →
        (".git".data).isSuffixOf ("git@".data ++ host ++ ':' :: path) = false →
        normalizeUrlChars ("git@".data ++ host ++ ':' :: path) = host ++ '/' :: path)
    ∧ (∀ sch host path : Chars, (sch = "http://".data ∨ sch = "https://".data) →
        (∀ c ∈ host, c ≠ '/' ∧ c ≠ ':' ∧ c ≠ '?' ∧ c ≠ '#') →
        path ≠ [] → (∀ c ∈ path, c ≠ '?' ∧ c ≠ '#') → (∀ c ∈ path, c ≠ ';') →
        path.head? ≠ some '/' → path.getLast? ≠ some '/' →
        (".git".data).isSuffixOf (sch ++ host ++ '/' :: path) = false →
        normalizeUrlChars (sch ++ host ++ '/' :: path) = host ++ '/' :: path)
    ∧ (∀ sch host port path : Chars, (sch = "http://".data ∨ sch = "https://".data) →
        (∀ c ∈ host, c ≠ '/' ∧ c ≠ ':' ∧ c ≠ '?' ∧ c ≠ '#') →
        (∀ c ∈ port, c ≠ '/' ∧ c ≠ '?' ∧ c ≠ '#') →
        path ≠ [] → (∀ c ∈ path, c ≠ '?' ∧ c ≠ '#') → (∀ c ∈ path, c ≠ ';') →
        path.head? ≠ some '/' → path.getLast? ≠ some '/' →
        (".git".data).isSuffixOf (sch ++ (host ++ ':' :: port) ++ '/' :: path) = false →
        normalizeUrlChars (sch ++ (host ++ ':' :: port) ++ '/' :: path) = host ++ '/' :: path)
    ∧ (∀ sch host p1 p2 : Chars, (sch = "http://".data ∨ sch = "https://".data) →
        (∀ c ∈ host, c ≠ '/' ∧ c ≠ ':' ∧ c ≠ '?' ∧ c ≠ '#') →
        p1 ≠ [] → (∀ c ∈ p1, c ≠ '/' ∧ c ≠ ';' ∧ c ≠ '?' ∧ c ≠ '#') →
        (∀ c ∈ p2, c ≠ '/' ∧ c ≠ '?' ∧ c ≠ '#') →
        (".git".data).isSuffixOf (sch ++ host ++ '/' :: (p1 ++ ';' :: p2)) = false →
        normalizeUrlChars (sch ++ host ++ '/' :: (p1 ++ ';' :: p2)) = host ++ '/' :: p1)
    ∧ (∀ s : Chars, (".git".data).isSuffixOf s = false →
        ("git@".data).isPrefixOf s = false →
        ("http://".data).isPrefixOf s = false → ("https://".data).isPrefixOf s = false →
        normalizeUrlChars s = s)
    ∧ normalize_url "https://github.com/acme/widgets.git" = "github.com/acme/widgets"
    ∧ normalize_url "git@gitlab.com:team/proj.git" = "gitlab.com/team/proj"
    ∧ normalize_url "https://h/team/proj;v2" = "h/team/proj" := by
  refine ⟨?_, ?_, ?_, ?_, ?_, ?_, by decide, by decide, by decide⟩
  · intro s hs
    have hne : (s ++ ".git".data).isEmpty = false := by
      cases s <;> rfl
    rw [normalizeUrlChars_eq_body hs]
    simp only [normalizeUrlChars, hne, Bool.false_eq_true, if_false]
    exact congrArg normalizeBody (stripGitSuffix_append s)
  · intro host path hh hg
    rw [normalizeUrlChars_eq_body hg]
    exact normalizeBody_ssh host path hh
  · intro sch host path hs hhost hp hpc hsemi hhead hlast hgit
    rw [normalizeUrlChars_eq_body hgit]
    have hmid : ∀ c ∈ host, c ≠ '/' ∧ c ≠ '?' ∧ c ≠ '#' := by
      intro c hc
      obtain ⟨h1, h2, h3, h4⟩ := hhost c hc
      exact ⟨h1, h3, h4⟩
    have hnc : host.contains ':' = false := by
      by_contra hcon
      have : ':' ∈ host := by
        rw [← List.elem_iff]
        exact eq_true_of_ne_false (fun hf => hcon hf)
      exact (hhost ':' this).2.1 rfl
    rw [normalizeBody_http sch host path hs hmid hp hpc hsemi hhead hlast, hnc]
    simp
  · intro sch host port path hs hhost hport hp hpc hsemi hhead hlast hgit
    rw [normalizeUrlChars_eq_body hgit]
    have hmid : ∀ c ∈ host ++ ':' :: port, c ≠ '/' ∧ c ≠ '?' ∧ c ≠ '#' := by
      intro c hc
      rcases List.mem_append.1 hc with hc | hc
      · obtain ⟨h1, h2, h3, h4⟩ := hhost c hc
        exact ⟨h1, h3, h4⟩
      · rcases List.mem_cons.1 hc with rfl | hc
        · refine ⟨by decide, by decide, by decide⟩
        · exact hport c hc
    rw [normalizeBody_http sch (host ++ ':' :: port) path hs hmid hp hpc hsemi hhead hlast]
    have hcont : (host ++ ':' :: port).contains ':' = true := by
      rw [List.elem_iff]; simp
    have hallne : ∀ c ∈ host, (c != ':') = true := by
      intro c hc
      simpa [bne_iff_ne] using (hhost c hc).2.1
    have htake : (host ++ ':' :: port).takeWhile (fun a => a != ':') = host := by
      rw [takeWhile_append_all _ _ _ hallne,
        takeWhile_cons_stop (fun a => a != ':') _ _ (by simp)]
      simp
    rw [hcont, if_pos rfl, htake]
  · intro sch host p1 p2 hs hhost hp1 hp1c hp2c hgit
    rw [normalizeUrlChars_eq_body hgit]
    have hmid : ∀ c ∈ host, c ≠ '/' ∧ c ≠ '?' ∧ c ≠ '#' := by
      intro c hc
      obtain ⟨h1, h2, h3, h4⟩ := hhost c hc
      exact ⟨h1, h3, h4⟩
    have hnc : host.contains ':' = false := by
      by_contra hcon
      have : ':' ∈ host := by
        rw [← List.elem_iff]
        exact eq_true_of_ne_false (fun hf => hcon hf)
      exact (hhost ':' this).2.1 rfl
    rw [normalizeBody_http_params sch host p1 p2 hs hmid hp1 hp1c hp2c, hnc]
    simp
  · intro s hgit hg hh1 hh2
    rw [normalizeUrlChars_eq_body hgit]
    simp [normalizeBody, hg, hh1, hh2]

/-- C2 counterexample: the claim asserts that every SSH shorthand
`user@host:path` is rewritten to `host/path`, but the code only handles
the user `git`: a URL with user `alice` passes through unchanged instead
of becoming `example.com/team/proj`. -/
theorem claim2_counterexample :
    normalize_url "alice@example.com:team/proj" = "alice@example.com:team/proj" ∧
    normalize_url "alice@example.com:team/proj" ≠ "example.com/team/proj" := by
  exact ⟨by decide, by decide⟩

/-- Witness for the amended C2 theorem at concrete inputs, including a URL
whose last path segment carries `;`-parameters. -/
theorem claim2_normalize_url_witness :
    normalizeUrlChars ("x".data ++ ".git".data) = normalizeUrlChars "x".data ∧
    normalizeUrlChars ("git@".data ++ "gitlab.com".data ++ ':' :: "team/proj".data) =
      "gitlab.com".data ++ '/' :: "team/proj".data ∧
    normalizeUrlChars ("https://".data ++ "github.com".data ++ '/' :: "acme/widgets".data) =
      "github.com".data ++ '/' :: "acme/widgets".data ∧
    normalizeUrlChars ("http://".data ++ ("github.com".data ++ ':' :: "8080".data) ++
        '/' :: "acme/widgets".data) = "github.com".data ++ '/' :: "acme/widgets".data ∧
    normalizeUrlChars ("https://".data ++ "h".data ++
        '/' :: ("proj".data ++ ';' :: "v2".data)) = "h".data ++ '/' :: "proj".data ∧
    normalizeUrlChars "already/bare".data = "already/bare".data := by
  refine ⟨claim2_normalize_url.1 _ (by decide),
    claim2_normalize_url.2.1 _ _ (by decide) (by decide),
    claim2_normalize_url.2.2.1 "https://".data _ _ (Or.inr rfl) (by decide) (by decide)
      (by decide) (by decide) (by decide) (by decide) (by decide),
    claim2_normalize_url.2.2.2.1 "http://".data _ _ _ (Or.inl rfl) (by decide) (by decide)
      (by decide) (by decide) (by decide) (by decide) (by decide) (by decide),
    claim2_normalize_url.2.2.2.2.1 "https://".data _ _ _ (Or.inr rfl) (by decide) (by decide)
      (by decide) (by decide) (by decide),
    claim2_normalize_url.2.2.2.2.2.1 _ (by decide) (by decide) (by decide) (by decide)⟩

/-! ### Claim C4: the branch matcher -/

/-- C4.  The four configured fragments are concatenated into the single
anchored pattern `^(...)(...)(...)(...)(...)$` with the separator kept
verbatim when bracketed and `re.escape`d otherwise; with the default
fragments the compiled pattern is `^([A-Za-z]{1,10})([-_])(\d+)([-_])(.*)$`,
and extraction returns the captured groups plus the raw branch name on a
match and `none` (a classification, encoded in the `Option`) otherwise:
`extract_ticket_info "JIRA-123-login-fix"` yields prefix `JIRA`, number
`123`, description `login-fix`, while `extract_ticket_info "123-feature"`
yields `none`. -/
theorem claim4_branch_pattern :
    (∀ p s n d : String, (strStartsWith s "[" && strEndsWith s "]") = true →
      buildTicketPattern p s n d =
        "^(" ++ p ++ ")(" ++ s ++ ")(" ++ n ++ ")(" ++ s ++ ")(" ++ d ++ ")$")
    ∧ (∀ p s n d : String, (strStartsWith s "[" && strEndsWith s "]") = false →
      buildTicketPattern p s n d =
        "^(" ++ p ++ ")(" ++ reEscape s ++ ")(" ++ n ++ ")(" ++ reEscape s ++ ")(" ++ d ++ ")$")
    ∧ buildTicketPattern defaultPrefixPattern defaultSeparator defaultNumberPattern
        defaultDescriptionPattern = "^([A-Za-z]\x7b1,10\x7d)([-_])(\\d+)([-_])(.*)$"
    ∧ extract_ticket_info "JIRA-123-login-fix" =
        some ⟨"JIRA", "123", "login-fix", "JIRA-123-login-fix"⟩
    ∧ extract_ticket_info "123-feature" = none := by
  refine ⟨?_, ?_, by decide, by decide, by decide⟩
  · intro p s n d h
    simp [buildTicketPattern, h]
  · intro p s n d h
    simp [buildTicketPattern, h]

/-- Witness for C4 at concrete inputs: a bracketed separator is used
verbatim, an unbracketed one is escaped. -/
theorem claim4_branch_pattern_witness :
    buildTicketPattern "x" "[-_]" "y" "z" = "^(x)([-_])(y)([-_])(z)$" ∧
    buildTicketPattern "x" "-" "y" "z" = "^(x)(\\-)(y)(\\-)(z)$" := by
  constructor
  · exact (claim4_branch_pattern.1 "x" "[-_]" "y" "z" (by decide)).trans (by decide)
  · exact (claim4_branch_pattern.2.1 "x" "-" "y" "z" (by decide)).trans (by decide)

/-! ### Claim C7: sanitizer length ceilings -/

theorem length_truncate_le (l : Chars) (n : Nat) :
    (if n < l.length then l.take n else l).length ≤ n := by
  split
  · simp only [List.length_take]
    omega
  · omega

/-- C7.  On POSIX-like systems the sanitized name is at most 255
characters; on the legacy-path-limit platform the cap is
`max 50 (260 - workspace_path_len - 50)` where the base-path length used
is the constant estimate `100`, i.e. the cap is `110` and never falls
below `50`; sanitizing a 300-character name that loses nothing to
dot/space trimming yields exactly `110` characters there. -/
theorem claim7_sanitize_length :
    workspace_path_len = 100
    ∧ windowsMaxNameLen = max 50 (260 - workspace_path_len - 50)
    ∧ windowsMaxNameLen = 110
    ∧ 50 ≤ windowsMaxNameLen
    ∧ (∀ name : String, (sanitize_directory_name false name).length ≤ 255)
    ∧ (∀ name : String, (sanitize_directory_name true name).length ≤ windowsMaxNameLen)
    ∧ (∀ name : String, name.length = 300 →
        trimCharSet ['.', ' '] (replaceInvalid name.data) = replaceInvalid name.data →
        (sanitize_directory_name true name).length = 110) := by
  refine ⟨rfl, rfl, by decide, by decide, ?_, ?_, ?_⟩
  · intro name
    show (sanitizeDirChars false name.data).length ≤ 255
    simp only [sanitizeDirChars, Bool.false_eq_true, if_false]
    exact length_truncate_le _ 255
  · intro name
    show (sanitizeDirChars true name.data).length ≤ windowsMaxNameLen
    simp only [sanitizeDirChars, if_true]
    exact length_truncate_le _ windowsMaxNameLen
  · intro name h300 htrim
    show (sanitizeDirChars true name.data).length = 110
    have hdl : name.data.length = 300 := h300
    have hrl : (replaceInvalid name.data).length = 300 := by
      simpa [replaceInvalid] using hdl
    have hres : reservedNames.contains
        (⟨(replaceInvalid name.data).map Char.toUpper⟩ : String) = false := by
      by_contra hcon
      have hmem : (⟨(replaceInvalid name.data).map Char.toUpper⟩ : String) ∈ reservedNames := by
        rw [← List.elem_iff]
        exact eq_true_of_ne_false (fun hf => hcon hf)
      have hlenbound : ∀ r ∈ reservedNames, r.length ≤ 4 := by decide
      have hlen300 : (⟨(replaceInvalid name.data).map Char.toUpper⟩ : String).length = 300 := by
        show ((replaceInvalid name.data).map Char.toUpper).length = 300
        simpa using hrl
      have := hlenbound _ hmem
      omega
    simp only [sanitizeDirChars, htrim, hres, Bool.false_eq_true, if_false, if_true]
    have hlt : windowsMaxNameLen < (replaceInvalid name.data).length := by
      rw [hrl]; decide
    rw [if_pos hlt]
    simp only [List.length_take, hrl]
    decide

/-- Witness for the C7 scenario at a concrete 300-character name. -/
theorem claim7_sanitize_length_witness :
    (sanitize_directory_name true ⟨List.replicate 300 'a'⟩).length = 110 := by
  exact claim7_sanitize_length.2.2.2.2.2.2 ⟨List.replicate 300 'a'⟩ (by decide) (by decide)

/-! ### Configuration lookup and update lemmas -/

theorem lowerKey_length (s : String) : (lowerKey s).length = s.length := by
  show (lowerChars s.data).length = s.data.length
  simp [lowerChars]

theorem String.length_append_my (a b : String) : (a ++ b).length = a.length + b.length := by
  show ((a ++ b).data).length = a.data.length + b.data.length
  rw [String.data_append, List.length_append]

theorem ne_of_length_ne {a b : String} (h : a.length ≠ b.length) : a ≠ b := by
  intro he
  exact h (by rw [he])

theorem dotKey_ne_bare (sec key : String) : lowerKey key ≠ lowerKey (sec ++ "." ++ key) := by
  refine ne_of_length_ne ?_
  rw [lowerKey_length, lowerKey_length, String.length_append_my, String.length_append_my]
  have h1 : ("." : String).length = 1 := rfl
  omega

theorem default_section_ne (sec : String) : ("default." ++ sec) ≠ sec := by
  refine ne_of_length_ne ?_
  rw [String.length_append_my]
  have h8 : ("default." : String).length = 8 := rfl
  omega

theorem findSection_setOption (cfg : ConfigData) (s k v q : String) :
    findSection (setOption cfg s k v) q =
      if q = s then some (setOptInList ((findSection cfg s).getD []) k v)
      else findSection cfg q := by
  induction cfg with
  | nil =>
    by_cases h : q = s
    · subst h; simp [setOption, findSection, setOptInList]
    · simp [setOption, findSection, h, Ne.symm h]
  | cons so rest ih =>
    obtain ⟨s1, os⟩ := so
    by_cases h1 : s1 = s
    · subst h1
      simp only [setOption, if_pos rfl]
      by_cases h2 : q = s1
      · subst h2; simp [findSection]
      · simp [findSection, h2, Ne.symm h2]
    · simp only [setOption, if_neg h1]
      by_cases h2 : q = s1
      · subst h2; simp [findSection, h1]
      · simp only [findSection, if_neg (Ne.symm h2)]
        rw [ih]
        by_cases h3 : q = s
        · simp [h3, findSection, h1]
        · simp [h3]

theorem lookupOpt_setOptInList (os : ConfigOptions) (k v q : String) :
    lookupOpt (setOptInList os k v) q =
      if k = lowerKey q then some v else lookupOpt os q := by
  induction os with
  | nil => simp [setOptInList, lookupOpt]
  | cons kv rest ih =>
    obtain ⟨k1, v1⟩ := kv
    by_cases h1 : k1 = k
    · subst h1
      by_cases h2 : k1 = lowerKey q
      · simp [setOptInList, lookupOpt, h2]
      · simp [setOptInList, lookupOpt, h2]
    · simp only [setOptInList, if_neg h1]
      by_cases h2 : k1 = lowerKey q
      · simp only [lookupOpt, if_pos h2]
        rw [if_neg (fun he : k = lowerKey q => h1 (h2.trans he.symm))]
      · simp only [lookupOpt, if_neg h2]
        rw [ih]

theorem sectionLookup_setOption (cfg : ConfigData) (s k v q1 q2 : String) :
    sectionLookup (setOption cfg s k v) q1 q2 =
      if q1 = s then (if k = lowerKey q2 then some v else sectionLookup cfg q1 q2)
      else sectionLookup cfg q1 q2 := by
  unfold sectionLookup
  rw [findSection_setOption]
  by_cases h : q1 = s
  · subst h
    simp only [if_pos rfl]
    cases hf : findSection cfg q1 with
    | none => simp [lookupOpt_setOptInList, lookupOpt]
    | some os => simp [lookupOpt_setOptInList]
  · simp [h]

theorem get_eq_spec (d : ConfigData) (instR : Option String) (sec key : String)
    (fb repoArg : Option String) :
    ConfigManager.get ⟨d, instR⟩ sec key fb repoArg =
      (match effRepo repoArg instR with
      | some r =>
        if r = "" then (sectionLookup d ("default." ++ sec) key).getD (fb.getD "")
        else
          match sectionLookup d ("repo:" ++ r) (sec ++ "." ++ key) with
          | some v => v
          | none => (sectionLookup d ("default." ++ sec) key).getD (fb.getD "")
      | none => (sectionLookup d ("default." ++ sec) key).getD (fb.getD "")) := by
  unfold ConfigManager.get sectionLookup
  cases heff : effRepo repoArg instR with
  | none =>
    cases hd : findSection d ("default." ++ sec) with
    | none => simp [heff, hd]
    | some os => cases hl : lookupOpt os key <;> simp [heff, hd, hl]
  | some r =>
    by_cases hr : r = ""
    · subst hr
      cases hd : findSection d ("default." ++ sec) with
      | none => simp [heff, hd]
      | some os => cases hl : lookupOpt os key <;> simp [heff, hd, hl]
    · cases hrs : findSection d ("repo:" ++ r) with
      | none =>
        cases hd : findSection d ("default." ++ sec) with
        | none => simp [heff, hr, hrs, hd]
        | some os => cases hl : lookupOpt os key <;> simp [heff, hr, hrs, hd, hl]
      | some osr =>
        cases hlr : lookupOpt osr (sec ++ "." ++ key) with
        | some v => simp [heff, hr, hrs, hlr]
        | none =>
          cases hd : findSection d ("default." ++ sec) with
          | none => simp [heff, hr, hrs, hlr, hd]
          | some os => cases hl : lookupOpt os key <;> simp [heff, hr, hrs, hlr, hd, hl]

/-! ### Claim C1: `ConfigManager.get` precedence -/

/-- C1.  For the effective repo id (the explicit `repo_id` argument if not
`None`, else the instance repo id): `get` returns the value stored in
section `repo:<repoId>` under the dot-qualified key `<section>.<key>` when
that section exists and contains that key; otherwise the value stored in
`default.<section>` under the bare key when present; otherwise the
supplied fallback; otherwise the empty string.  A repository section other
than the one for the effective repo id is never consulted (the final
congruence conjunct).  An empty effective repo id is falsy in the source
and treated as absent, which is why the repository conjuncts carry
`r ≠ ""`; repository identifiers produced by the tool are never empty (see
`repo_identifier_ne_empty`).  The `percentFree` hypotheses restrict to
`%`-free stored values, on which `configparser` interpolation is the
identity. -/
theorem claim1_get_precedence (cfg : ConfigData) (instR : Option String) (sec key : String)
    (fb repoArg : Option String) (hpf : percentFree cfg = true) :
    (∀ r v, effRepo repoArg instR = some r → r ≠ "" →
      sectionLookup cfg ("repo:" ++ r) (sec ++ "." ++ key) = some v →
      ConfigManager.get ⟨cfg, instR⟩ sec key fb repoArg = v)
    ∧ (∀ v, (∀ r, effRepo repoArg instR = some r → r ≠ "" →
        sectionLookup cfg ("repo:" ++ r) (sec ++ "." ++ key) = none) →
      sectionLookup cfg ("default." ++ sec) key = some v →
      ConfigManager.get ⟨cfg, instR⟩ sec key fb repoArg = v)
    ∧ ((∀ r, effRepo repoArg instR = some r → r ≠ "" →
        sectionLookup cfg ("repo:" ++ r) (sec ++ "." ++ key) = none) →
      sectionLookup cfg ("default." ++ sec) key = none →
      ConfigManager.get ⟨cfg, instR⟩ sec key fb repoArg = fb.getD "")
    ∧ (∀ cfg2, percentFree cfg2 = true →
      (∀ r, effRepo repoArg instR = some r → r ≠ "" →
        findSection cfg2 ("repo:" ++ r) = findSection cfg ("repo:" ++ r)) →
      findSection cfg2 ("default." ++ sec) = findSection cfg ("default." ++ sec) →
      ConfigManager.get ⟨cfg2, instR⟩ sec key fb repoArg =
        ConfigManager.get ⟨cfg, instR⟩ sec key fb repoArg) := by
  refine ⟨?_, ?_, ?_, ?_⟩
  · intro r v heff hr hlook
    rw [get_eq_spec, heff]
    simp [hr, hlook]
  · intro v hnone hdef
    rw [get_eq_spec]
    cases heff : effRepo repoArg instR with
    | none => simp [hdef]
    | some r =>
      by_cases hr : r = ""
      · simp [hr, hdef]
      · simp [hr, hnone r heff hr, hdef]
  · intro hnone hdef
    rw [get_eq_spec]
    cases heff : effRepo repoArg instR with
    | none => simp [hdef]
    | some r =>
      by_cases hr : r = ""
      · simp [hr, hdef]
      · simp [hr, hnone r heff hr, hdef]
  · intro cfg2 hpf2 hrepo hdef
    rw [get_eq_spec, get_eq_spec]
    cases heff : effRepo repoArg instR with
    | none => simp [sectionLookup, hdef]
    | some r =>
      by_cases hr : r = ""
      · simp [hr, sectionLookup, hdef]
      · simp [hr, sectionLookup, hdef, hrepo r heff hr]

/-- Witness for C1 at a concrete configuration: the override wins for its
repo id, the default is used when the override section lacks the key, and
the fallback is used when both are absent. -/
theorem claim1_get_precedence_witness :
    ConfigManager.get
        ⟨[("repo:github.com/o/r", [("paths.workspace_base", "/custom")]),
          ("default.paths", [("workspace_base", "~/tickets")])], none⟩
        "paths" "workspace_base" none (some "github.com/o/r") = "/custom"
    ∧ ConfigManager.get ⟨defaultConfigData, none⟩ "paths" "workspace_base" none
        (some "github.com/o/r") = "~/tickets"
    ∧ ConfigManager.get ⟨defaultConfigData, none⟩ "paths" "nope" (some "fb")
        (some "github.com/o/r") = "fb" := by
  refine ⟨?_, ?_, ?_⟩
  · exact (claim1_get_precedence _ none "paths" "workspace_base" none (some "github.com/o/r")
      (by decide)).1 "github.com/o/r" "/custom" rfl (by decide) (by decide)
  · exact (claim1_get_precedence defaultConfigData none "paths" "workspace_base" none
      (some "github.com/o/r") (by decide)).2.1 "~/tickets"
      (fun r hr _ => by cases hr; decide) (by decide)
  · exact (claim1_get_precedence defaultConfigData none "paths" "nope" (some "fb")
      (some "github.com/o/r") (by decide)).2.2.1
      (fun r hr _ => by cases hr; decide) (by decide)

/-! ### Claim C10: legacy flat `set` is invisible to `get` -/

/-- C10.  `ConfigManager.set` with `repo_id=None` and `default=False`
writes the bare (`optionxform`ed) key into the section named exactly by
the category string; that section differs from the `default.<category>`
section `get` consults, and the written entry is invisible to
`ConfigManager.get` for the same category and key: for every fallback and
repo argument, `get` returns exactly what it returned before the write,
still resolving only repository override, default namespace, supplied
fallback and the empty string. -/
theorem claim10_legacy_set_invisible (cfg : ConfigData) (instR : Option String)
    (sec key value : String) (hv : value.data.contains '%' = false) :
    (ConfigManager.set ⟨cfg, instR⟩ sec key value none false).data
      = setOption cfg sec (lowerKey key) value
    ∧ sectionLookup (ConfigManager.set ⟨cfg, instR⟩ sec key value none false).data sec key
      = some value
    ∧ sec ≠ "default." ++ sec
    ∧ (∀ fb repoArg,
        ConfigManager.get (ConfigManager.set ⟨cfg, instR⟩ sec key value none false)
            sec key fb repoArg
          = ConfigManager.get ⟨cfg, instR⟩ sec key fb repoArg) := by
  refine ⟨rfl, ?_, (default_section_ne sec).symm, ?_⟩
  · rw [show (ConfigManager.set ⟨cfg, instR⟩ sec key value none false).data
        = setOption cfg sec (lowerKey key) value from rfl]
    rw [sectionLookup_setOption]
    simp
  · intro fb repoArg
    have hdata : (ConfigManager.set ⟨cfg, instR⟩ sec key value none false)
        = ⟨setOption cfg sec (lowerKey key) value, instR⟩ := rfl
    rw [hdata, get_eq_spec, get_eq_spec]
    have hdef : sectionLookup (setOption cfg sec (lowerKey key) value) ("default." ++ sec) key
        = sectionLookup cfg ("default." ++ sec) key := by
      rw [sectionLookup_setOption, if_neg (default_section_ne sec)]
    have hrepo : ∀ r, sectionLookup (setOption cfg sec (lowerKey key) value)
        ("repo:" ++ r) (sec ++ "." ++ key)
        = sectionLookup cfg ("repo:" ++ r) (sec ++ "." ++ key) := by
      intro r
      rw [sectionLookup_setOption]
      by_cases h : ("repo:" ++ r) = sec
      · rw [if_pos h, if_neg (dotKey_ne_bare sec key)]
      · rw [if_neg h]
    cases heff : effRepo repoArg instR with
    | none => simp [hdef]
    | some r =>
      by_cases hr : r = ""
      · simp [hr, hdef]
      · simp [hr, hdef, hrepo r]

/-- Witness for C10 at a concrete configuration. -/
theorem claim10_legacy_set_invisible_witness :
    sectionLookup (ConfigManager.set ⟨defaultConfigData, none⟩ "paths" "workspace_base"
        "/elsewhere" none false).data "paths" "workspace_base" = some "/elsewhere"
    ∧ ConfigManager.get (ConfigManager.set ⟨defaultConfigData, none⟩ "paths" "workspace_base"
        "/elsewhere" none false) "paths" "workspace_base" none (some "github.com/o/r")
      = ConfigManager.get ⟨defaultConfigData, none⟩ "paths" "workspace_base" none
        (some "github.com/o/r") := by
  have h := claim10_legacy_set_invisible defaultConfigData none "paths" "workspace_base"
    "/elsewhere" (by decide)
  exact ⟨h.2.1, h.2.2.2 none (some "github.com/o/r")⟩

/-! ### INI serialization round-trip lemmas -/

theorem string_mk_data (s : String) : (⟨s.data⟩ : String) = s := by
  cases s; rfl

theorem trim_inv_parts {l : Chars} (h : trimChars l = l) :
    l.dropWhile Char.isWhitespace = l ∧
    l.reverse.dropWhile Char.isWhitespace = l.reverse := by
  have h2 : (l.dropWhile Char.isWhitespace).reverse.dropWhile Char.isWhitespace = l.reverse := by
    have := congrArg List.reverse h
    simpa [trimChars] using this
  have hlen1 : ((l.dropWhile Char.isWhitespace).reverse.dropWhile Char.isWhitespace).length
      ≤ (l.dropWhile Char.isWhitespace).length := by
    have := (List.dropWhile_suffix
      (l := (l.dropWhile Char.isWhitespace).reverse) Char.isWhitespace).length_le
    simpa using this
  have hlen2 : (l.dropWhile Char.isWhitespace).length ≤ l.length :=
    (List.dropWhile_suffix Char.isWhitespace).length_le
  have hleneq : (l.dropWhile Char.isWhitespace).length = l.length := by
    have := congrArg List.length h2
    simp at this
    omega
  have hfront : l.dropWhile Char.isWhitespace = l :=
    List.IsSuffix.eq_of_length (List.dropWhile_suffix Char.isWhitespace) hleneq
  refine ⟨hfront, ?_⟩
  rw [hfront] at h2
  exact h2

theorem head_not_ws {c : Char} {r : Chars}
    (h : (c :: r).dropWhile Char.isWhitespace = c :: r) : Char.isWhitespace c = false := by
  by_contra hc
  have hc2 : Char.isWhitespace c = true := eq_true_of_ne_false hc
  rw [List.dropWhile_cons, if_pos hc2] at h
  have := congrArg List.length h
  have hle : (r.dropWhile Char.isWhitespace).length ≤ r.length :=
    (List.dropWhile_suffix Char.isWhitespace).length_le
  simp at this
  omega

theorem trim_nonempty_head {c : Char} {r : Chars} (hw : Char.isWhitespace c = false) :
    trimChars (c :: r) ≠ [] := by
  intro hnil
  unfold trimChars at hnil
  rw [dropWhile_cons_stop Char.isWhitespace _ _ hw] at hnil
  have h2 : (c :: r).reverse.dropWhile Char.isWhitespace = [] := by
    have := congrArg List.reverse hnil
    simpa using this
  have := (List.dropWhile_eq_nil_iff.1 h2) c (by simp)
  rw [hw] at this
  exact Bool.noConfusion this

theorem trim_append_space {l : Chars} (h : trimChars l = l) (hne : l ≠ []) :
    trimChars (l ++ [' ']) = l := by
  obtain ⟨c, r, rfl⟩ : ∃ c r, l = c :: r := by
    cases l with
    | nil => exact absurd rfl hne
    | cons c r => exact ⟨c, r, rfl⟩
  obtain ⟨hfront, hback⟩ := trim_inv_parts h
  have hw : Char.isWhitespace c = false := head_not_ws hfront
  unfold trimChars
  have h1 : ((c :: r) ++ [' ']).dropWhile Char.isWhitespace = (c :: r) ++ [' '] := by
    rw [List.cons_append]
    exact dropWhile_cons_stop Char.isWhitespace _ _ hw
  have hsp : Char.isWhitespace ' ' = true := by decide
  rw [h1, List.reverse_concat, List.dropWhile_cons, if_pos hsp, hback]
  simp

theorem trim_cons_space {l : Chars} (h : trimChars l = l) :
    trimChars (' ' :: l) = l := by
  obtain ⟨hfront, hback⟩ := trim_inv_parts h
  have hsp : Char.isWhitespace ' ' = true := by decide
  unfold trimChars
  rw [List.dropWhile_cons, if_pos hsp, hfront]
  conv =>
    lhs
    rw [hback]
  exact List.reverse_reverse l

theorem optLine_data (k v : String) : (optLine k v).data = k.data ++ ' ' :: '=' :: ' ' :: v.data := by
  show (k ++ " = " ++ v).data = _
  rw [String.data_append, String.data_append, List.append_assoc]
  rfl

theorem headerLine_data (s : String) : (headerLine s).data = '[' :: (s.data ++ [']']) := by
  show ("[" ++ s ++ "]").data = _
  rw [String.data_append, String.data_append]
  rfl

theorem optKeyOK_parts {k : String} (h : optKeyOK k = true) :
    k.data ≠ [] ∧ (∀ c ∈ k.data, c ≠ '\n' ∧ c ≠ '=' ∧ c ≠ ':') ∧
    k.data.getD 0 ' ' ≠ '[' ∧ k.data.getD 0 ' ' ≠ '#' ∧ k.data.getD 0 ' ' ≠ ';' ∧
    trimChars k.data = k.data ∧ lowerChars k.data = k.data := by
  unfold optKeyOK at h
  simp only [Bool.and_eq_true, beq_iff_eq, bne_iff_ne, List.all_eq_true,
    Bool.not_eq_eq_eq_not, Bool.not_true] at h
  obtain ⟨⟨⟨⟨⟨⟨h1, h2⟩, h3⟩, h4⟩, h5⟩, h6⟩, h7⟩ := h
  have h1b : k.data ≠ [] := by
    intro he
    rw [he] at h1
    exact Bool.noConfusion h1
  refine ⟨h1b, ?_, h3, h4, h5, h6, h7⟩
  intro c hc
  have := h2 c hc
  simp only [Bool.and_eq_true, bne_iff_ne] at this
  exact ⟨this.1.1, this.1.2, this.2⟩

theorem valOK_parts {v : String} (h : valOK v = true) :
    (∀ c ∈ v.data, c ≠ '\n') ∧ trimChars v.data = v.data := by
  unfold valOK at h
  simp only [Bool.and_eq_true, beq_iff_eq, List.all_eq_true, bne_iff_ne] at h
  exact h

theorem secOK_parts {s : String} (h : secOK s = true) :
    s.data ≠ [] ∧ (∀ c ∈ s.data, c ≠ '\n' ∧ c ≠ ']') := by
  unfold secOK at h
  simp only [Bool.and_eq_true, List.all_eq_true, Bool.not_eq_eq_eq_not, Bool.not_true,
    bne_iff_ne] at h
  obtain ⟨h1, h2⟩ := h
  have h1b : s.data ≠ [] := by
    intro he
    rw [he] at h1
    exact Bool.noConfusion h1
  refine ⟨h1b, fun c hc => ?_⟩
  have := h2 c hc
  simp only [Bool.and_eq_true, bne_iff_ne] at this
  exact this

theorem blankL_eq_false {s : String} {c : Char} {r : Chars} (hd : s.data = c :: r)
    (hw : Char.isWhitespace c = false) : blankL s = false := by
  unfold blankL
  rw [hd]
  cases htr : trimChars (c :: r) with
  | nil => exact absurd htr (trim_nonempty_head hw)
  | cons a t => rfl

theorem not_comment_head {s : String} {c : Char} {r : Chars} (hd : s.data = c :: r)
    (h1 : c ≠ '#') (h2 : c ≠ ';') : commentL s = false := by
  unfold commentL strStartsWith
  rw [hd]
  have e1 : ("#".data).isPrefixOf (c :: r) = false := by
    show List.isPrefixOf ['#'] (c :: r) = false
    simp [List.isPrefixOf, Ne.symm h1]
  have e2 : (";".data).isPrefixOf (c :: r) = false := by
    show List.isPrefixOf [';'] (c :: r) = false
    simp [List.isPrefixOf, Ne.symm h2]
  rw [e1, e2]
  rfl

theorem not_header_head {s : String} {c : Char} {r : Chars} (hd : s.data = c :: r)
    (h1 : c ≠ '[') : isHeaderL s = false := by
  unfold isHeaderL strStartsWith
  rw [hd]
  have e1 : ("[".data).isPrefixOf (c :: r) = false := by
    show List.isPrefixOf ['['] (c :: r) = false
    simp [List.isPrefixOf, Ne.symm h1]
  rw [e1]
  rfl

theorem headerLine_parts {s : String} (hs : secOK s = true) :
    blankL (headerLine s) = false ∧ commentL (headerLine s) = false ∧
    isHeaderL (headerLine s) = true ∧ headerNameL (headerLine s) = s := by
  obtain ⟨hne, hchars⟩ := secOK_parts hs
  have hdata := headerLine_data s
  refine ⟨blankL_eq_false hdata (by decide), not_comment_head hdata (by decide) (by decide),
    ?_, ?_⟩
  · unfold isHeaderL strStartsWith strEndsWith
    rw [hdata]
    have e1 : ("[".data).isPrefixOf ('[' :: (s.data ++ [']'])) = true := by
      show List.isPrefixOf ['['] ('[' :: (s.data ++ [']'])) = true
      simp [List.isPrefixOf]
    have e2 : ("]".data).isSuffixOf ('[' :: (s.data ++ [']'])) = true := by
      rw [List.isSuffixOf_iff_suffix]
      exact ⟨'[' :: s.data, by simp⟩
    rw [e1, e2]
    rfl
  · unfold headerNameL
    rw [hdata]
    show (⟨(s.data ++ [']']).takeWhile (fun c => c != ']')⟩ : String) = s
    have hall : ∀ c ∈ s.data, ((c != ']') = true) := by
      intro c hc
      simpa [bne_iff_ne] using (hchars c hc).2
    rw [takeWhile_append_all _ _ _ hall,
      takeWhile_cons_stop (fun c => c != ']') _ _ (by simp)]
    simpa using string_mk_data s

theorem splitKV_optLine {k v : String} (hk : optKeyOK k = true) (hv : valOK v = true) :
    splitKV (optLine k v) = some (k, v) := by
  obtain ⟨hkne, hkchars, _, _, _, hktrim, hklower⟩ := optKeyOK_parts hk
  obtain ⟨hvchars, hvtrim⟩ := valOK_parts hv
  have hdata := optLine_data k v
  have hallk : ∀ c ∈ k.data, ((c != '=') && (c != ':')) = true := by
    intro c hc
    have h2 := hkchars c hc
    simp [bne_iff_ne, h2.2.1, h2.2.2]
  have hpre : (optLine k v).data.takeWhile (fun c => c != '=' && c != ':')
      = k.data ++ [' '] := by
    rw [hdata, takeWhile_append_all _ _ _ hallk]
    have : (' ' :: '=' :: ' ' :: v.data).takeWhile (fun c => c != '=' && c != ':')
        = [' '] := by
      rw [List.takeWhile_cons, if_pos (by decide),
        takeWhile_cons_stop (fun c => c != '=' && c != ':') _ _ (by decide)]
    rw [this]
  have hlinelen : (optLine k v).data.length = k.data.length + 3 + v.data.length := by
    rw [hdata]
    simp
    omega
  have hprelen : (k.data ++ [' ']).length = k.data.length + 1 := by simp
  unfold splitKV
  rw [hpre]
  rw [if_neg (by omega)]
  have hdrop : (optLine k v).data.drop ((k.data ++ [' ']).length + 1) = ' ' :: v.data := by
    rw [hdata, hprelen]
    have hshape : k.data ++ ' ' :: '=' :: ' ' :: v.data
        = (k.data ++ [' ', '=']) ++ (' ' :: v.data) := by
      simp
    rw [hshape]
    have hlen2 : (k.data ++ [' ', '=']).length = k.data.length + 1 + 1 := by
      simp
    rw [← hlen2, List.drop_left]
  rw [hdrop]
  have hkey : lowerKey (trimStr ⟨k.data ++ [' ']⟩) = k := by
    unfold trimStr
    show lowerKey ⟨trimChars (k.data ++ [' '])⟩ = k
    rw [trim_append_space hktrim hkne, string_mk_data]
    show (⟨lowerChars k.data⟩ : String) = k
    rw [hklower, string_mk_data]
  have hval : trimStr ⟨' ' :: v.data⟩ = v := by
    unfold trimStr
    show (⟨trimChars (' ' :: v.data)⟩ : String) = v
    rw [trim_cons_space hvtrim, string_mk_data]
  rw [hkey, hval]

theorem optLine_parts {k v : String} (hk : optKeyOK k = true) (hv : valOK v = true) :
    blankL (optLine k v) = false ∧ commentL (optLine k v) = false ∧
    isHeaderL (optLine k v) = false ∧ splitKV (optLine k v) = some (k, v) := by
  obtain ⟨hkne, hkchars, hb1, hb2, hb3, hktrim, hklower⟩ := optKeyOK_parts hk
  obtain ⟨c, r, hkd⟩ : ∃ c r, k.data = c :: r := by
    cases hkk : k.data with
    | nil => exact absurd hkk hkne
    | cons c r => exact ⟨c, r, rfl⟩
  have hdata2 : (optLine k v).data = c :: (r ++ ' ' :: '=' :: ' ' :: v.data) := by
    rw [optLine_data, hkd]
    rfl
  have hgetd : k.data.getD 0 ' ' = c := by rw [hkd]; rfl
  rw [hgetd] at hb1 hb2 hb3
  have hwc : Char.isWhitespace c = false := by
    have hfront := (trim_inv_parts hktrim).1
    rw [hkd] at hfront
    exact head_not_ws hfront
  exact ⟨blankL_eq_false hdata2 hwc, not_comment_head hdata2 hb2 hb3,
    not_header_head hdata2 hb1, splitKV_optLine hk hv⟩

theorem parseGo_optLines (os : ConfigOptions)
    (hos : os.all (fun kv => optKeyOK kv.1 && valOK kv.2) = true)
    (name : String) (acc : ConfigOptions) (rest : List String) :
    parseGo (some (name, acc)) ((os.map (fun kv => optLine kv.1 kv.2)) ++ rest)
      = parseGo (some (name, acc ++ os)) rest := by
  induction os generalizing acc with
  | nil => simp
  | cons kv os2 ih =>
    obtain ⟨k, v⟩ := kv
    have hosx := hos
    simp only [List.all_cons, Bool.and_eq_true] at hosx
    obtain ⟨⟨hk, hv⟩, hrest⟩ := hosx
    obtain ⟨hb, hc, hh, hs⟩ := optLine_parts hk hv
    simp only [List.map_cons, List.cons_append, parseGo, hb, hc, Bool.or_self,
      Bool.false_eq_true, if_false, hh, hs, List.append_eq]
    rw [ih hrest (acc ++ [(k, v)])]
    simp

theorem parseGo_saveLines (cfg : ConfigData) (hwf : configWF cfg = true) :
    ∀ cur, parseGo cur (cmSaveLines cfg)
      = (match cur with | none => cfg | some so => so :: cfg) := by
  induction cfg with
  | nil =>
    intro cur
    cases cur <;> rfl
  | cons so rest ih =>
    intro cur
    obtain ⟨s, os⟩ := so
    have hwfx := hwf
    simp only [configWF, List.all_cons, Bool.and_eq_true] at hwfx
    obtain ⟨⟨hs, hos⟩, hrest⟩ := hwfx
    have hrest2 : configWF rest = true := hrest
    obtain ⟨hb, hc, hh, hn⟩ := headerLine_parts hs
    show parseGo cur (headerLine s :: (os.map (fun kv => optLine kv.1 kv.2)
      ++ ("" :: cmSaveLines rest))) = _
    have hblank : blankL "" = true := by decide
    cases cur with
    | none =>
      simp only [parseGo, hb, hc, Bool.or_self, Bool.false_eq_true, if_false, hh, if_true, hn]
      rw [parseGo_optLines os hos s [] ("" :: cmSaveLines rest)]
      simp only [List.nil_append, parseGo, hblank, Bool.true_or, if_true]
      rw [ih hrest2 (some (s, os))]
    | some so2 =>
      simp only [parseGo, hb, hc, Bool.or_self, Bool.false_eq_true, if_false, hh, if_true, hn]
      rw [parseGo_optLines os hos s [] ("" :: cmSaveLines rest)]
      simp only [List.nil_append, parseGo, hblank, Bool.true_or, if_true]
      rw [ih hrest2 (some (s, os))]

/-- The INI round trip: a well-formed configuration written by
`ConfigParser.write` and re-read by a fresh parser is unchanged. -/
theorem cmRoundTrip (cfg : ConfigData) (hwf : configWF cfg = true) :
    cmLoadLines (cmSaveLines cfg) = cfg :=
  parseGo_saveLines cfg hwf none

theorem optionsWF_setOptInList (os : ConfigOptions) (k v : String)
    (h : os.all (fun kv => optKeyOK kv.1 && valOK kv.2) = true)
    (hk : optKeyOK k = true) (hv : valOK v = true) :
    (setOptInList os k v).all (fun kv => optKeyOK kv.1 && valOK kv.2) = true := by
  induction os with
  | nil => simp [setOptInList, hk, hv]
  | cons kv2 rest ih =>
    obtain ⟨k1, v1⟩ := kv2
    simp only [List.all_cons, Bool.and_eq_true] at h
    obtain ⟨⟨h1, h2⟩, h3⟩ := h
    by_cases he : k1 = k
    · simp [setOptInList, he, hk, hv, h3]
    · simp only [setOptInList, if_neg he, List.all_cons, Bool.and_eq_true]
      exact ⟨⟨h1, h2⟩, ih h3⟩

theorem configWF_setOption (cfg : ConfigData) (s k v : String) (hwf : configWF cfg = true)
    (hs : secOK s = true) (hk : optKeyOK k = true) (hv : valOK v = true) :
    configWF (setOption cfg s k v) = true := by
  induction cfg with
  | nil => simp [setOption, configWF, hs, hk, hv]
  | cons so rest ih =>
    obtain ⟨s1, os⟩ := so
    simp only [configWF, List.all_cons, Bool.and_eq_true] at hwf
    obtain ⟨⟨h1, h2⟩, h3⟩ := hwf
    by_cases he : s1 = s
    · simp only [setOption, if_pos he, configWF, List.all_cons, Bool.and_eq_true]
      exact ⟨⟨h1, optionsWF_setOptInList os k v h2 hk hv⟩, h3⟩
    · simp only [setOption, if_neg he, configWF, List.all_cons, Bool.and_eq_true]
      exact ⟨⟨h1, h2⟩, ih h3⟩

/-! ### Claim C8: `set` persistence and round trip -/

/-- C8.  After `ConfigManager.set`, the value is stored under the computed
target section and key, the persisted file re-read by a fresh parser yields
exactly the post-`set` configuration (so read-after-write holds in a new
instance as well as the same one), `get` for the same category and key
sees the value (immediately for a repository target; for a default target
whenever no repository override shadows it, which is what "against the
same target" requires), and every section and key other than the written
one is unchanged by the write and the save/load round trip.  Hypotheses:
the prior configuration and the written section/key/value are well-formed
INI data (`configWF`/`secOK`/`optKeyOK`/`valOK`), the value is `%`-free,
and a repository target has a non-empty repo id (identifiers produced by
the tool are never empty, see `repo_identifier_ne_empty`). -/
theorem claim8_set_roundtrip (cfg : ConfigData) (instR : Option String)
    (sec key value : String) (repoId : Option String) (deflt : Bool)
    (hwf : configWF cfg = true)
    (hs : secOK (ConfigManager.setTarget sec key repoId deflt).1 = true)
    (hk : optKeyOK (lowerKey (ConfigManager.setTarget sec key repoId deflt).2) = true)
    (hv : valOK value = true) (hpct : value.data.contains '%' = false) :
    configWF (ConfigManager.set ⟨cfg, instR⟩ sec key value repoId deflt).data = true
    ∧ cmLoadLines (cmSaveLines (ConfigManager.set ⟨cfg, instR⟩ sec key value repoId deflt).data)
      = (ConfigManager.set ⟨cfg, instR⟩ sec key value repoId deflt).data
    ∧ sectionLookup (ConfigManager.set ⟨cfg, instR⟩ sec key value repoId deflt).data
        (ConfigManager.setTarget sec key repoId deflt).1
        (ConfigManager.setTarget sec key repoId deflt).2 = some value
    ∧ (deflt = false → ∀ r, repoId = some r → r ≠ "" → ∀ fb,
        ConfigManager.get (ConfigManager.set ⟨cfg, instR⟩ sec key value repoId deflt)
          sec key fb (some r) = value)
    ∧ (deflt = true → ∀ fb repoArg,
        (∀ r, effRepo repoArg instR = some r → r ≠ "" →
          sectionLookup (ConfigManager.set ⟨cfg, instR⟩ sec key value repoId deflt).data
            ("repo:" ++ r) (sec ++ "." ++ key) = none) →
        ConfigManager.get (ConfigManager.set ⟨cfg, instR⟩ sec key value repoId deflt)
          sec key fb repoArg = value)
    ∧ (∀ q1 q2, q1 ≠ (ConfigManager.setTarget sec key repoId deflt).1 ∨
        lowerKey q2 ≠ lowerKey (ConfigManager.setTarget sec key repoId deflt).2 →
        sectionLookup (ConfigManager.set ⟨cfg, instR⟩ sec key value repoId deflt).data q1 q2
          = sectionLookup cfg q1 q2)
    ∧ (∀ q, q ≠ (ConfigManager.setTarget sec key repoId deflt).1 →
        findSection (ConfigManager.set ⟨cfg, instR⟩ sec key value repoId deflt).data q
          = findSection cfg q) := by
  have hdata : (ConfigManager.set ⟨cfg, instR⟩ sec key value repoId deflt).data
      = setOption cfg (ConfigManager.setTarget sec key repoId deflt).1
          (lowerKey (ConfigManager.setTarget sec key repoId deflt).2) value := rfl
  have hwf2 : configWF (ConfigManager.set ⟨cfg, instR⟩ sec key value repoId deflt).data
      = true := by
    rw [hdata]
    exact configWF_setOption cfg _ _ value hwf hs hk hv
  have hstored : sectionLookup (ConfigManager.set ⟨cfg, instR⟩ sec key value repoId deflt).data
      (ConfigManager.setTarget sec key repoId deflt).1
      (ConfigManager.setTarget sec key repoId deflt).2 = some value := by
    rw [hdata, sectionLookup_setOption, if_pos rfl, if_pos rfl]
  refine ⟨hwf2, cmRoundTrip _ hwf2, hstored, ?_, ?_, ?_, ?_⟩
  · intro hdef r hrid hr fb
    subst hdef
    subst hrid
    have htgt : ConfigManager.setTarget sec key (some r) false = ("repo:" ++ r, sec ++ "." ++ key) := by
      simp [ConfigManager.setTarget, hr]
    have hmk : (ConfigManager.set ⟨cfg, instR⟩ sec key value (some r) false)
        = ⟨(ConfigManager.set ⟨cfg, instR⟩ sec key value (some r) false).data, instR⟩ := rfl
    rw [hmk, get_eq_spec]
    rw [htgt] at hstored
    simp [effRepo, hr, hstored]
  · intro hdef fb repoArg hnoshadow
    subst hdef
    have htgt : ConfigManager.setTarget sec key repoId true = ("default." ++ sec, key) := rfl
    have hmk : (ConfigManager.set ⟨cfg, instR⟩ sec key value repoId true)
        = ⟨(ConfigManager.set ⟨cfg, instR⟩ sec key value repoId true).data, instR⟩ := rfl
    rw [hmk, get_eq_spec]
    rw [htgt] at hstored
    cases heff : effRepo repoArg instR with
    | none => simp [hstored]
    | some r =>
      by_cases hr : r = ""
      · simp [hr, hstored]
      · simp [hr, hstored, hnoshadow r heff hr]
  · intro q1 q2 hne
    rw [hdata, sectionLookup_setOption]
    rcases hne with hne | hne
    · rw [if_neg hne]
    · by_cases h1 : q1 = (ConfigManager.setTarget sec key repoId deflt).1
      · rw [if_pos h1, if_neg (fun he => hne he.symm)]
      · rw [if_neg h1]
  · intro q hq
    rw [hdata, findSection_setOption, if_neg hq]

/-- Witness for C8: a concrete repository-namespace write on the seeded
default configuration round-trips through the file and is immediately
visible to `get`. -/
theorem claim8_set_roundtrip_witness :
    cmLoadLines (cmSaveLines (ConfigManager.set ⟨defaultConfigData, none⟩ "paths"
        "workspace_base" "/w" (some "github.com/o/r") false).data)
      = (ConfigManager.set ⟨defaultConfigData, none⟩ "paths" "workspace_base" "/w"
          (some "github.com/o/r") false).data
    ∧ ConfigManager.get (ConfigManager.set ⟨defaultConfigData, none⟩ "paths" "workspace_base"
        "/w" (some "github.com/o/r") false) "paths" "workspace_base" none
        (some "github.com/o/r") = "/w"
    ∧ sectionLookup (ConfigManager.set ⟨defaultConfigData, none⟩ "paths" "workspace_base"
        "/w" (some "github.com/o/r") false).data "default.branches" "standard_branches"
      = sectionLookup defaultConfigData "default.branches" "standard_branches" := by
  have h := claim8_set_roundtrip defaultConfigData none "paths" "workspace_base" "/w"
    (some "github.com/o/r") false (by decide) (by decide) (by decide) (by decide) (by decide)
  refine ⟨h.2.1, ?_, ?_⟩
  · exact h.2.2.2.1 rfl "github.com/o/r" rfl (by decide) none
  · exact h.2.2.2.2.2.1 "default.branches" "standard_branches" (Or.inl (by decide))

/-! ### Claim C9: repository identifier resolution -/

theorem firstOtherRemote_eq_some {l : List (String × String)} {v : String}
    (h : firstOtherRemote l = some v) : v ≠ "" := by
  induction l with
  | nil => exact absurd h (by simp [firstOtherRemote])
  | cons nu rest ih =>
    unfold firstOtherRemote at h
    by_cases hc : nu.1 ≠ "origin" ∧ normalize_url nu.2 ≠ ""
    · rw [if_pos hc] at h
      cases h
      exact hc.2
    · rw [if_neg hc] at h
      exact ih h

theorem firstOtherRemote_append (rs1 rs2 : List (String × String)) (n u : String)
    (h1 : ∀ p ∈ rs1, p.1 = "origin") (h2 : n ≠ "origin") (h3 : normalize_url u ≠ "") :
    firstOtherRemote (rs1 ++ (n, u) :: rs2) = some (normalize_url u) := by
  induction rs1 with
  | nil =>
    rw [List.nil_append]
    show (if (n, u).1 ≠ "origin" ∧ normalize_url (n, u).2 ≠ ""
      then some (normalize_url (n, u).2) else firstOtherRemote rs2)
      = some (normalize_url u)
    rw [if_pos ⟨h2, h3⟩]
  | cons p rest ih =>
    have hp : p.1 = "origin" := h1 p (by simp)
    rw [List.cons_append]
    show (if p.1 ≠ "origin" ∧ normalize_url p.2 ≠ ""
      then some (normalize_url p.2) else firstOtherRemote (rest ++ (n, u) :: rs2))
      = some (normalize_url u)
    rw [if_neg (fun hc => hc.1 hp)]
    exact ih (fun q hq => h1 q (by simp [hq]))

theorem local_identifier_ne_empty (env : GitEnv) : get_local_identifier env ≠ "" := by
  cases hgd : env.git_dir with
  | none =>
    unfold get_local_identifier
    rw [hgd]
    show ("local/unknown" : String) ≠ ""
    decide
  | some gd =>
    unfold get_local_identifier
    rw [hgd]
    show ("local/" ++ gd.dropLast.getLastD "" ++ "-"
      ++ (env.md5hex (env.resolvePath gd.dropLast)).take 8) ≠ ""
    refine ne_of_length_ne ?_
    rw [String.length_append_my, String.length_append_my, String.length_append_my]
    have h6 : ("local/" : String).length = 6 := rfl
    have h0 : ("" : String).length = 0 := rfl
    omega

/-- A repository identifier produced by the tool is never the empty
string: every branch of the fallback chain yields a non-empty value. -/
theorem repo_identifier_ne_empty (env : GitEnv) : get_repo_identifier env ≠ "" := by
  unfold get_repo_identifier
  have hafter : (match firstOtherRemote (get_all_remotes env) with
      | some v => v
      | none => get_local_identifier env) ≠ "" := by
    cases hf : firstOtherRemote (get_all_remotes env) with
    | none => simpa using local_identifier_ne_empty env
    | some v => simpa using firstOtherRemote_eq_some hf
  cases hurl : get_remote_url env with
  | none => simpa [hurl] using hafter
  | some u =>
    by_cases hu : u ≠ ""
    · by_cases hn : normalize_url u ≠ ""
      · simpa [hurl, hu, hn] using hn
      · simpa [hurl, hu, hn] using hafter
    · simpa [hurl, hu] using hafter

/-- C9.  `get_repo_identifier` queries origin first and returns its
normalized URL when usable; when origin yields no URL it uses the first
non-origin remote in enumeration order whose URL normalizes to something
usable; when no remote yields a URL it returns
`local/<repo-root-dirname>-<first 8 hex digest characters of the resolved
root path>`, which is a pure function of the environment and hence
deterministic for a fixed path; a failed subprocess is treated exactly as
an absent remote, and without any git context the sentinel
`local/unknown` is returned.  Totality of the Lean function is the
"never fails" guarantee. -/
theorem claim9_repo_identifier (env : GitEnv) :
    (env.git_dir = none → get_repo_identifier env = "local/unknown")
    ∧ (∀ gd u, env.git_dir = some gd → env.originCall = .ok u → trimStr u ≠ "" →
        normalize_url (trimStr u) ≠ "" →
        get_repo_identifier env = normalize_url (trimStr u))
    ∧ (∀ gd rs1 n u rs2, env.git_dir = some gd → env.originCall = .error () →
        env.remotesCall = .ok (rs1 ++ (n, u) :: rs2) →
        (∀ p ∈ rs1, p.1 = "origin") → n ≠ "origin" → normalize_url u ≠ "" →
        get_repo_identifier env = normalize_url u)
    ∧ (∀ gd, env.git_dir = some gd → env.originCall = .error () →
        (env.remotesCall = .error () ∨ env.remotesCall = .ok []) →
        get_repo_identifier env =
          "local/" ++ gd.dropLast.getLastD "" ++ "-"
            ++ (env.md5hex (env.resolvePath gd.dropLast)).take 8)
    ∧ (env.originCall = .error () → get_remote_url env = none)
    ∧ (env.remotesCall = .error () → get_all_remotes env = [])
    ∧ get_repo_identifier env ≠ "" := by
  refine ⟨?_, ?_, ?_, ?_, ?_, ?_, repo_identifier_ne_empty env⟩
  · intro hgd
    unfold get_repo_identifier get_remote_url get_all_remotes get_local_identifier
    rw [hgd]
    simp [firstOtherRemote]
  · intro gd u hgd hoc htr hnz
    have hurl : get_remote_url env = some (trimStr u) := by
      unfold get_remote_url
      rw [hgd, hoc]
    unfold get_repo_identifier
    rw [hurl]
    simp [htr, hnz]
  · intro gd rs1 n u rs2 hgd hoc hrc hall hn hnz
    have hurl : get_remote_url env = none := by
      unfold get_remote_url
      rw [hgd, hoc]
    have hrem : get_all_remotes env = rs1 ++ (n, u) :: rs2 := by
      unfold get_all_remotes
      rw [hgd, hrc]
    unfold get_repo_identifier
    rw [hurl, hrem, firstOtherRemote_append rs1 rs2 n u hall hn hnz]
  · intro gd hgd hoc hrc
    have hurl : get_remote_url env = none := by
      unfold get_remote_url
      rw [hgd, hoc]
    have hrem : get_all_remotes env = [] := by
      unfold get_all_remotes
      rcases hrc with hrc | hrc <;> rw [hgd, hrc]
    unfold get_repo_identifier
    rw [hurl, hrem]
    show (match firstOtherRemote [] with
      | some v => v
      | none => get_local_identifier env) = _
    show get_local_identifier env = _
    unfold get_local_identifier
    rw [hgd]
  · intro hoc
    unfold get_remote_url
    cases env.git_dir with
    | none => rfl
    | some gd => rw [hoc]
  · intro hrc
    unfold get_all_remotes
    cases env.git_dir with
    | none => rfl
    | some gd => rw [hrc]

/-- Witness for C9 at a concrete environment: no remotes at all, a failing
origin subprocess, and a repository at `/home/u/proj`. -/
theorem claim9_repo_identifier_witness :
    get_repo_identifier
        ⟨some ["/", "home", "u", "proj", ".git"], Except.error (), Except.error (),
          fun _ => "/home/u/proj", fun _ => "0123456789abcdef0123456789abcdef"⟩
      = "local/proj-01234567" := by
  have h := (claim9_repo_identifier
    ⟨some ["/", "home", "u", "proj", ".git"], Except.error (), Except.error (),
      fun _ => "/home/u/proj", fun _ => "0123456789abcdef0123456789abcdef"⟩).2.2.2.1
    ["/", "home", "u", "proj", ".git"] rfl rfl (Or.inl rfl)
  rw [h]
  decide

/-! ### Filesystem lemmas -/

theorem present_append (fs ext : FS) (p : List String) :
    present (fs ++ ext) p = (present fs p || present ext p) := by
  simp [present, List.any_append]

theorem present_addDir_self (fs : FS) (p : List String) :
    present (addDir fs p) p = true := by
  unfold addDir
  by_cases h : present fs p = true
  · rw [if_pos h]
    exact h
  · rw [if_neg h, present_append]
    have h2 : present [(p, true)] p = true := by
      simp [present]
    rw [h2]
    simp

theorem addDir_of_present {fs : FS} {p : List String} (h : present fs p = true) :
    addDir fs p = fs := by
  simp [addDir, h]

theorem present_mono_append {fs : FS} {p : List String} (ext : FS)
    (h : present fs p = true) : present (fs ++ ext) p = true := by
  rw [present_append, h]
  rfl

theorem mkdirAllAux_shape (rest : List String) :
    ∀ (done : List String) (fs : FS), ∃ ext, mkdirAllAux fs done rest = fs ++ ext ∧
      ∀ e ∈ ext, e.2 = true ∧ ∃ j, 0 < j ∧ j ≤ rest.length ∧ e.1 = done ++ rest.take j := by
  induction rest with
  | nil =>
    intro done fs
    exact ⟨[], by simp [mkdirAllAux], by simp⟩
  | cons c r ih =>
    intro done fs
    obtain ⟨ext1, hext1, hprop1⟩ := ih (done ++ [c]) (addDir fs (done ++ [c]))
    by_cases h : present fs (done ++ [c]) = true
    · refine ⟨ext1, ?_, ?_⟩
      · show mkdirAllAux (addDir fs (done ++ [c])) (done ++ [c]) r = fs ++ ext1
        rw [addDir_of_present h] at hext1 ⊢
        exact hext1
      · intro e he
        obtain ⟨hd, j, hj1, hj2, hj3⟩ := hprop1 e he
        refine ⟨hd, j + 1, by omega, by simp; omega, ?_⟩
        rw [hj3]
        simp [List.take_succ_cons]
    · refine ⟨(done ++ [c], true) :: ext1, ?_, ?_⟩
      · show mkdirAllAux (addDir fs (done ++ [c])) (done ++ [c]) r = fs ++ _
        rw [hext1, show addDir fs (done ++ [c]) = fs ++ [(done ++ [c], true)] from
          by simp [addDir, h], List.append_assoc]
        rfl
      · intro e he
        rcases List.mem_cons.1 he with rfl | he
        · exact ⟨rfl, 1, by omega, by simp, by simp [List.take_succ_cons]⟩
        · obtain ⟨hd, j, hj1, hj2, hj3⟩ := hprop1 e he
          refine ⟨hd, j + 1, by omega, by simp; omega, ?_⟩
          rw [hj3]
          simp [List.take_succ_cons]

theorem mkdirAllAux_present_mono (rest : List String) :
    ∀ (done : List String) (fs : FS) (p : List String), present fs p = true →
      present (mkdirAllAux fs done rest) p = true := by
  intro done fs p h
  obtain ⟨ext, hext, _⟩ := mkdirAllAux_shape rest done fs
  rw [hext]
  exact present_mono_append ext h

theorem mkdirAllAux_post (rest : List String) :
    ∀ (done : List String) (fs : FS) (j : Nat), 0 < j → j ≤ rest.length →
      present (mkdirAllAux fs done rest) (done ++ rest.take j) = true := by
  induction rest with
  | nil =>
    intro done fs j hj1 hj2
    simp at hj2
    omega
  | cons c r ih =>
    intro done fs j hj1 hj2
    show present (mkdirAllAux (addDir fs (done ++ [c])) (done ++ [c]) r) _ = true
    cases j with
    | zero => omega
    | succ j2 =>
      rw [List.take_succ_cons]
      cases Nat.eq_zero_or_pos j2 with
      | inl hz =>
        subst hz
        simp only [List.take_zero, List.append_nil]
        exact mkdirAllAux_present_mono r (done ++ [c]) _ _ (present_addDir_self fs (done ++ [c]))
      | inr hpos =>
        have hle : j2 ≤ r.length := by
          simp at hj2
          omega
        have := ih (done ++ [c]) (addDir fs (done ++ [c])) j2 hpos hle
        rw [List.append_assoc] at this
        simpa using this

theorem mkdirAllAux_noop (rest : List String) :
    ∀ (done : List String) (fs : FS),
      (∀ j, 0 < j → j ≤ rest.length → present fs (done ++ rest.take j) = true) →
      mkdirAllAux fs done rest = fs := by
  induction rest with
  | nil =>
    intro done fs _
    rfl
  | cons c r ih =>
    intro done fs h
    have h1 : present fs (done ++ [c]) = true := by
      have := h 1 (by omega) (by simp)
      simpa [List.take_succ_cons] using this
    show mkdirAllAux (addDir fs (done ++ [c])) (done ++ [c]) r = fs
    rw [addDir_of_present h1]
    refine ih (done ++ [c]) fs ?_
    intro j hj1 hj2
    have h3 := h (j + 1) (by omega) (by simp; omega)
    rw [List.take_succ_cons] at h3
    simpa using h3

theorem mkdirAll_post (fs : FS) (pc : List String) (j : Nat) (hj1 : 0 < j)
    (hj2 : j ≤ pc.length) : present (mkdirAll fs pc) (pc.take j) = true := by
  have := mkdirAllAux_post pc [] fs j hj1 hj2
  simpa using this

theorem mkdirAll_noop {fs : FS} {pc : List String}
    (h : ∀ j, 0 < j → j ≤ pc.length → present fs (pc.take j) = true) :
    mkdirAll fs pc = fs := by
  refine mkdirAllAux_noop pc [] fs ?_
  intro j hj1 hj2
  simpa using h j hj1 hj2

theorem mkdirAll_mkdirAll (fs : FS) (pc : List String) :
    mkdirAll (mkdirAll fs pc) pc = mkdirAll fs pc :=
  mkdirAll_noop (fun j hj1 hj2 => mkdirAll_post fs pc j hj1 hj2)

theorem mkdirAll_present_mono {fs : FS} {p : List String} (pc : List String)
    (h : present fs p = true) : present (mkdirAll fs pc) p = true :=
  mkdirAllAux_present_mono pc [] fs p h

theorem mkdirAll_concat_of_prefixes {fs : FS} {pc : List String} (x : String)
    (h : ∀ j, 0 < j → j ≤ pc.length → present fs (pc.take j) = true) :
    mkdirAll fs (pc ++ [x]) = addDir fs (pc ++ [x]) := by
  unfold mkdirAll
  suffices haux : ∀ (rest : List String) (done : List String) (fs2 : FS),
      (∀ j, 0 < j → j ≤ rest.length → present fs2 (done ++ rest.take j) = true) →
      mkdirAllAux fs2 done (rest ++ [x]) = addDir fs2 (done ++ (rest ++ [x])) by
    have := haux pc [] fs (by intro j h1 h2; simpa using h j h1 h2)
    simpa using this
  intro rest
  induction rest with
  | nil =>
    intro done fs2 _
    show mkdirAllAux (addDir fs2 (done ++ [x])) (done ++ [x]) [] = _
    rfl
  | cons c r ih =>
    intro done fs2 h2
    have h1 : present fs2 (done ++ [c]) = true := by
      have := h2 1 (by omega) (by simp)
      simpa [List.take_succ_cons] using this
    show mkdirAllAux (addDir fs2 (done ++ [c])) (done ++ [c]) (r ++ [x]) = _
    rw [addDir_of_present h1]
    rw [ih (done ++ [c]) fs2 ?_]
    · rw [List.append_assoc]
      rfl
    · intro j hj1 hj2
      have h3 := h2 (j + 1) (by omega) (by simp; omega)
      rw [List.take_succ_cons] at h3
      simpa using h3

theorem findSome?_eq_some_split {α β : Type} (f : α → Option β) (l : List α) (b : β)
    (h : l.findSome? f = some b) :
    ∃ l1 a l2, l = l1 ++ a :: l2 ∧ f a = some b ∧ ∀ x ∈ l1, f x = none := by
  induction l with
  | nil => exact absurd h (by simp [List.findSome?])
  | cons a rest ih =>
    rw [List.findSome?] at h
    cases hfa : f a with
    | some v =>
      rw [hfa] at h
      cases h
      exact ⟨[], a, rest, rfl, hfa, by simp⟩
    | none =>
      rw [hfa] at h
      obtain ⟨l1, a2, l2, hl, hf, hn⟩ := ih h
      refine ⟨a :: l1, a2, l2, by rw [hl]; rfl, hf, ?_⟩
      intro x hx
      rcases List.mem_cons.1 hx with rfl | hx
      · exact hfa
      · exact hn x hx

theorem findSome?_eq_none_all {α β : Type} (f : α → Option β) (l : List α)
    (h : l.findSome? f = none) : ∀ a ∈ l, f a = none := by
  induction l with
  | nil => simp
  | cons a rest ih =>
    rw [List.findSome?] at h
    cases hfa : f a with
    | some v => rw [hfa] at h; exact absurd h (by simp)
    | none =>
      rw [hfa] at h
      intro x hx
      rcases List.mem_cons.1 hx with rfl | hx
      · exact hfa
      · exact ih h x hx

/-! ### Path component lemmas -/

theorem segsAux_no_slash (v : Chars) :
    ∀ acc : Chars, (∀ c ∈ v, c ≠ '/') →
      segsAux acc v = if acc = [] ∧ v = [] then [] else [⟨acc.reverse ++ v⟩] := by
  induction v with
  | nil =>
    intro acc _
    by_cases h : acc = []
    · subst h
      simp [segsAux]
    · simp [segsAux, h, List.isEmpty_iff]
  | cons c r ih =>
    intro acc hv
    have hc : ¬ c = '/' := hv c (by simp)
    simp only [segsAux]
    rw [if_neg hc, ih (c :: acc) (fun x hx => hv x (by simp [hx]))]
    have hne : ¬ ((c :: acc) = [] ∧ r = []) := by
      intro hco
      exact List.noConfusion hco.1
    rw [if_neg hne, if_neg (by intro hco; exact List.noConfusion hco.2)]
    congr 1
    rw [List.reverse_cons, List.append_assoc, List.singleton_append]

theorem segsAux_append_slash (u : Chars) :
    ∀ (acc v : Chars), (∀ c ∈ v, c ≠ '/') → v ≠ [] →
      segsAux acc (u ++ '/' :: v) = segsAux acc u ++ [⟨v⟩] := by
  induction u with
  | nil =>
    intro acc v hv hvne
    have hs : segsAux [] v = [⟨v⟩] := by
      rw [segsAux_no_slash v [] hv, if_neg (by intro hco; exact hvne hco.2)]
      rfl
    rw [List.nil_append]
    by_cases h : acc.isEmpty = true
    · simp only [segsAux, if_pos rfl]
      rw [if_pos h, if_pos h, hs]
      rfl
    · simp only [segsAux, if_pos rfl]
      rw [if_neg h, if_neg h, hs]
      rfl
  | cons c u2 ih =>
    intro acc v hv hvne
    by_cases hc : c = '/'
    · subst hc
      simp only [List.cons_append, List.append_eq, segsAux, reduceIte]
      by_cases h : acc.isEmpty = true
      · rw [if_pos h, if_pos h, ih [] v hv hvne]
      · rw [if_neg h, if_neg h, ih [] v hv hvne]
        rfl
    · simp only [List.cons_append, List.append_eq, segsAux]
      rw [if_neg hc, if_neg hc, ih (c :: acc) v hv hvne]

theorem pathComponents_pjoin (b n : String) (hb : b ≠ "") (hn : n ≠ "")
    (hslash : ∀ c ∈ n.data, c ≠ '/') :
    pathComponents (pjoin b n) = pathComponents b ++ [n] := by
  have hbd : b.data ≠ [] := by
    intro he
    exact hb (by cases b; simp_all)
  have hnd : n.data ≠ [] := by
    intro he
    exact hn (by cases n; simp_all)
  have hjoin : (pjoin b n).data = b.data ++ '/' :: n.data := by
    unfold pjoin
    rw [if_neg hn]
    rw [String.data_append, String.data_append, List.append_assoc]
    rfl
  unfold pathComponents
  rw [hjoin]
  obtain ⟨c, r, hbr⟩ : ∃ c r, b.data = c :: r := by
    cases hbb : b.data with
    | nil => exact absurd hbb hbd
    | cons c r => exact ⟨c, r, rfl⟩
  have hhead : (b.data ++ '/' :: n.data).head? = b.data.head? := by
    rw [hbr]
    rfl
  rw [hhead, segsAux_append_slash b.data [] n.data hslash hnd]
  have hmk : (⟨n.data⟩ : String) = n := string_mk_data n
  rw [hmk, List.append_assoc]

theorem mem_truncate {l : Chars} {n : Nat} {c : Char}
    (hc : c ∈ (if n < l.length then l.take n else l)) : c ∈ l := by
  split at hc
  · exact List.take_subset _ _ hc
  · exact hc

theorem mem_trimCharSet {cs : Chars} {l : Chars} {c : Char} (h : c ∈ trimCharSet cs l) :
    c ∈ l := by
  unfold trimCharSet at h
  rw [List.mem_reverse] at h
  have h2 := (List.dropWhile_suffix (l := (l.dropWhile (fun a => cs.contains a)).reverse)
    (fun a => cs.contains a)).subset h
  rw [List.mem_reverse] at h2
  exact (List.dropWhile_suffix (fun a => cs.contains a)).subset h2

theorem replaceInvalid_no_slash (l : Chars) : ∀ c ∈ replaceInvalid l, c ≠ '/' := by
  intro c hc
  unfold replaceInvalid at hc
  obtain ⟨a, _, ha⟩ := List.mem_map.1 hc
  by_cases hinv : invalidChars.contains a = true
  · rw [if_pos hinv] at ha
    subst ha
    decide
  · rw [if_neg hinv] at ha
    subst ha
    intro he
    subst he
    exact hinv (by decide)

theorem sanitizeDirChars_no_slash (w : Bool) (name : Chars) :
    ∀ c ∈ sanitizeDirChars w name, c ≠ '/' := by
  intro c hc
  unfold sanitizeDirChars at hc
  have hbase : ∀ x ∈ ('_' :: trimCharSet ['.', ' '] (replaceInvalid name)), x ≠ '/' := by
    intro x hx
    rcases List.mem_cons.1 hx with rfl | hx
    · decide
    · exact replaceInvalid_no_slash name x (mem_trimCharSet hx)
  have hbase2 : ∀ x ∈ (if reservedNames.contains
        (⟨(trimCharSet ['.', ' '] (replaceInvalid name)).map Char.toUpper⟩ : String)
      then '_' :: trimCharSet ['.', ' '] (replaceInvalid name)
      else trimCharSet ['.', ' '] (replaceInvalid name)), x ≠ '/' := by
    intro x hx
    by_cases hres : reservedNames.contains
        (⟨(trimCharSet ['.', ' '] (replaceInvalid name)).map Char.toUpper⟩ : String) = true
    · rw [if_pos hres] at hx
      exact hbase x hx
    · rw [if_neg hres] at hx
      exact hbase x (by simp [hx])
  dsimp only at hc
  by_cases hw : w = true
  · rw [if_pos hw] at hc
    exact hbase2 c (mem_truncate hc)
  · rw [if_neg hw] at hc
    exact hbase2 c (mem_truncate hc)

/-! ### Claim C5: workspace root resolution -/

theorem pathEq_refl (w : Bool) (s : String) : pathEq w s s = true := by
  simp [pathEq]

theorem workspace_base_path_some (env : Env) (cm : ConfigManager) (r : String) :
    workspace_base_path env cm (some r) =
      (if r ≠ "" ∧ pathEq env.isWindows
            (cm.get_path env.home "paths" "workspace_base" none (some r))
            (cm.get_path env.home "paths" "workspace_base" (some "~/tickets") none) = true
       then pjoin
          (pathStr env.isWindows (cm.get_path env.home "paths" "workspace_base" none (some r)))
          (sanitizeRepoName r)
       else pathStr env.isWindows
          (cm.get_path env.home "paths" "workspace_base" none (some r))) := rfl

/-- C5 (amended).  `get_workspace_base` resolves `paths.workspace_base`
with inheritance for the supplied repo id and compares it, as `Path`
objects, with the value resolved through the *instance* context with
fallback `~/tickets` (which is the default workspace base whenever the
instance context has no override).  The sanitized repo name is appended
exactly when the two resolved paths compare equal — in particular an
unconfigured repository under the default base gets its own subtree, and
the comparison ignores the differences `pathlib` normalizes away — and
when the paths differ the root is exactly the path resolved for the repo,
with no suffix.  The directory is created if absent and repeated calls
are idempotent.  The original claim's "explicit override ⇒ exactly the
overridden path" is refuted by `claim5_counterexample`: an override whose
value coincides with the default still receives the repo suffix, because
the code compares resolved `Path` values rather than checking for the
presence of an override. -/
theorem claim5_workspace_base (env : Env) (cm : ConfigManager) (fs : FS)
    (repoId : Option String) :
    (∀ r, repoId = some r → r ≠ "" →
      pathEq env.isWindows
          (cm.get_path env.home "paths" "workspace_base" none (some r))
          (cm.get_path env.home "paths" "workspace_base" (some "~/tickets") none) = true →
      (get_workspace_base env cm fs repoId).1
        = pjoin
            (pathStr env.isWindows
              (cm.get_path env.home "paths" "workspace_base" none (some r)))
            (sanitizeRepoName r))
    ∧ (∀ r, repoId = some r →
      pathEq env.isWindows
          (cm.get_path env.home "paths" "workspace_base" none (some r))
          (cm.get_path env.home "paths" "workspace_base" (some "~/tickets") none) = false →
      (get_workspace_base env cm fs repoId).1
        = pathStr env.isWindows
            (cm.get_path env.home "paths" "workspace_base" none (some r)))
    ∧ (∀ r v, repoId = some r → r ≠ "" →
      sectionLookup cm.data ("repo:" ++ r) "paths.workspace_base" = none →
      (∀ ri, cm.repoId = some ri → ri ≠ "" →
        sectionLookup cm.data ("repo:" ++ ri) "paths.workspace_base" = none) →
      sectionLookup cm.data "default.paths" "workspace_base" = some v → v ≠ "" →
      (get_workspace_base env cm fs repoId).1
        = pjoin (pathStr env.isWindows (expanduser env.home v)) (sanitizeRepoName r))
    ∧ (∀ j, 0 < j → j ≤ (pathComponents (get_workspace_base env cm fs repoId).1).length →
        present (get_workspace_base env cm fs repoId).2
          ((pathComponents (get_workspace_base env cm fs repoId).1).take j) = true)
    ∧ get_workspace_base env cm (get_workspace_base env cm fs repoId).2 repoId
        = ((get_workspace_base env cm fs repoId).1, (get_workspace_base env cm fs repoId).2) := by
  obtain ⟨d, iR⟩ := cm
  refine ⟨?_, ?_, ?_, ?_, ?_⟩
  · intro r hrid hr heq
    subst hrid
    show workspace_base_path env ⟨d, iR⟩ (some r) = _
    rw [workspace_base_path_some, if_pos ⟨hr, heq⟩]
  · intro r hrid hne
    subst hrid
    show workspace_base_path env ⟨d, iR⟩ (some r) = _
    rw [workspace_base_path_some,
      if_neg (fun hc => by rw [hc.2] at hne; exact Bool.noConfusion hne)]
  · intro r v hrid hr hrepo hinst hdef hv
    subst hrid
    have hget1 : ConfigManager.get ⟨d, iR⟩ "paths" "workspace_base" none (some r) = v := by
      rw [get_eq_spec]
      simp [effRepo, hr, hrepo, hdef]
    have hget2 : ConfigManager.get ⟨d, iR⟩ "paths" "workspace_base" (some "~/tickets") iR
        = v := by
      rw [get_eq_spec]
      cases hiR : iR with
      | none => simp [effRepo, hdef]
      | some ri =>
        by_cases hri : ri = ""
        · simp [effRepo, hri, hdef]
        · have := hinst ri (by rw [hiR]) hri
          simp [effRepo, hri, hdef, this]
    have hwb : ConfigManager.get_path ⟨d, iR⟩ env.home "paths" "workspace_base" none (some r)
        = expanduser env.home v := by
      unfold ConfigManager.get_path
      dsimp only [effRepo]
      rw [hget1, if_pos hv]
    have hdwb : ConfigManager.get_path ⟨d, iR⟩ env.home "paths" "workspace_base"
        (some "~/tickets") none = expanduser env.home v := by
      unfold ConfigManager.get_path
      dsimp only [effRepo]
      rw [hget2, if_pos hv]
    show workspace_base_path env ⟨d, iR⟩ (some r) = _
    rw [workspace_base_path_some, if_pos ⟨hr, by rw [hwb, hdwb]; exact pathEq_refl _ _⟩, hwb]
  · intro j hj1 hj2
    exact mkdirAll_post fs _ j hj1 hj2
  · show (workspace_base_path env ⟨d, iR⟩ repoId,
      mkdirAll (mkdirAll fs (pathComponents (workspace_base_path env ⟨d, iR⟩ repoId)))
        (pathComponents (workspace_base_path env ⟨d, iR⟩ repoId))) = _
    rw [mkdirAll_mkdirAll]
    rfl

/-- C5 counterexample: the repository has an explicit override whose value
equals the default (`~/tickets`), yet the returned root is the override
path *with* the sanitized repo suffix appended, not "exactly the
overridden path". -/
theorem claim5_counterexample :
    sectionLookup
        [("default.paths", [("workspace_base", "~/tickets")]),
         ("repo:github.com/o/r", [("paths.workspace_base", "~/tickets")])]
        "repo:github.com/o/r" "paths.workspace_base" = some "~/tickets"
    ∧ (get_workspace_base ⟨"/h", false⟩
        ⟨[("default.paths", [("workspace_base", "~/tickets")]),
          ("repo:github.com/o/r", [("paths.workspace_base", "~/tickets")])], none⟩
        [] (some "github.com/o/r")).1 = "/h/tickets/github.com_o_r"
    ∧ ("/h/tickets/github.com_o_r" : String) ≠ "/h/tickets" := by
  exact ⟨by decide, by decide, by decide⟩

/-- Witness for C5: a repository with an override that differs from the
default uses exactly the overridden path; an unconfigured repository is
scoped under the default base by its sanitized identifier; and an
override spelled `~/tickets/` — a different string but the same `Path` as
the default `~/tickets` — still receives the repo suffix, over the
normalized base. -/
theorem claim5_workspace_base_witness :
    (get_workspace_base ⟨"/h", false⟩
        ⟨[("default.paths", [("workspace_base", "~/tickets")]),
          ("repo:github.com/o/r", [("paths.workspace_base", "/custom")])], none⟩
        [] (some "github.com/o/r")).1 = "/custom"
    ∧ (get_workspace_base ⟨"/h", false⟩ ⟨defaultConfigData, none⟩ []
        (some "github.com/o/r")).1 = "/h/tickets/github.com_o_r"
    ∧ (get_workspace_base ⟨"/h", false⟩
        ⟨[("default.paths", [("workspace_base", "~/tickets")]),
          ("repo:github.com/o/r", [("paths.workspace_base", "~/tickets/")])], none⟩
        [] (some "github.com/o/r")).1 = "/h/tickets/github.com_o_r" := by
  refine ⟨?_, ?_, ?_⟩
  · have h := (claim5_workspace_base ⟨"/h", false⟩
      ⟨[("default.paths", [("workspace_base", "~/tickets")]),
        ("repo:github.com/o/r", [("paths.workspace_base", "/custom")])], none⟩
      [] (some "github.com/o/r")).2.1 "github.com/o/r" rfl (by decide)
    exact h.trans (by decide)
  · have h := (claim5_workspace_base ⟨"/h", false⟩ ⟨defaultConfigData, none⟩ []
      (some "github.com/o/r")).2.2.1 "github.com/o/r" "~/tickets" rfl (by decide)
      (by decide) (fun ri hri => by cases hri) (by decide) (by decide)
    exact h.trans (by decide)
  · have h := (claim5_workspace_base ⟨"/h", false⟩
      ⟨[("default.paths", [("workspace_base", "~/tickets")]),
        ("repo:github.com/o/r", [("paths.workspace_base", "~/tickets/")])], none⟩
      [] (some "github.com/o/r")).1 "github.com/o/r" rfl (by decide) (by decide)
    exact h.trans (by decide)

/-! ### Claim C6: `find_existing_ticket_dir` -/

theorem dotStarEndOk_iff (l : Chars) :
    dotStarEndOk l = true ↔
      (l.contains '\n' = false ∨ ∃ t, l = t ++ ['\n'] ∧ t.contains '\n' = false) := by
  unfold dotStarEndOk
  rcases List.eq_nil_or_concat l with rfl | ⟨t, a, rfl⟩
  · simp
  · simp only [List.concat_eq_append]
    rw [List.getLastD_concat, List.dropLast_concat]
    constructor
    · intro h
      rcases Bool.or_eq_true_iff.1 h with h | h
      · left
        simpa using h
      · right
        obtain ⟨h1, h2⟩ := Bool.and_eq_true_iff.1 h
        refine ⟨t, by rw [beq_iff_eq.1 h1], by simpa using h2⟩
    · intro h
      rcases h with h | ⟨t2, heq, ht2⟩
      · exact Bool.or_eq_true_iff.2 (Or.inl (by simpa using h))
      · have hte : t2 = t ∧ '\n' = a :=
          List.concat_inj.1 (by simpa [List.concat_eq_append] using heq.symm)
        obtain ⟨rfl, ha⟩ := hte
        subst ha
        exact Bool.or_eq_true_iff.2 (Or.inr (Bool.and_eq_true_iff.2 ⟨by simp, by simpa using ht2⟩))

theorem tailOk_iff (l : Chars) :
    tailOk l = true ↔
      (l = [] ∨ l = ['\n'] ∨ ∃ s2 rest, (s2 = '-' ∨ s2 = '_') ∧ l = s2 :: rest ∧
        (rest.contains '\n' = false ∨ ∃ t, rest = t ++ ['\n'] ∧ t.contains '\n' = false)) := by
  cases l with
  | nil => simp [tailOk]
  | cons c r =>
    unfold tailOk
    constructor
    · intro h
      rcases Bool.or_eq_true_iff.1 h with h | h
      · obtain ⟨h1, h2⟩ := Bool.and_eq_true_iff.1 h
        refine Or.inr (Or.inl ?_)
        rw [beq_iff_eq.1 h1, List.isEmpty_iff.1 h2]
      · obtain ⟨h1, h2⟩ := Bool.and_eq_true_iff.1 h
        refine Or.inr (Or.inr ⟨c, r, ?_, rfl, (dotStarEndOk_iff r).1 h2⟩)
        rcases Bool.or_eq_true_iff.1 h1 with h | h
        · exact Or.inl (beq_iff_eq.1 h)
        · exact Or.inr (beq_iff_eq.1 h)
    · intro h
      rcases h with h | h | ⟨s2, rest, hs2, heq, hrest⟩
      · exact List.noConfusion h
      · obtain ⟨h1, h2⟩ : c = '\n' ∧ r = [] := by
          injection h with h1 h2
          exact ⟨h1, h2⟩
        subst h1
        subst h2
        rfl
      · obtain ⟨h1, h2⟩ : c = s2 ∧ r = rest := by
          injection heq with h1 h2
          exact ⟨h1, h2⟩
        subst h1
        subst h2
        refine Bool.or_eq_true_iff.2 (Or.inr (Bool.and_eq_true_iff.2
          ⟨?_, (dotStarEndOk_iff r).2 hrest⟩))
        rcases hs2 with rfl | rfl
        · simp
        · simp

theorem ticketDirMatch_iff (pfx num name : Chars) :
    ticketDirMatch pfx num name = true ↔
      ∃ s tail, (s = '-' ∨ s = '_') ∧
        lowerChars name = lowerChars pfx ++ s :: (lowerChars num ++ tail) ∧
        (tail = [] ∨ tail = ['\n'] ∨ ∃ s2 rest, (s2 = '-' ∨ s2 = '_') ∧ tail = s2 :: rest ∧
          (rest.contains '\n' = false ∨
            ∃ t, rest = t ++ ['\n'] ∧ t.contains '\n' = false)) := by
  unfold ticketDirMatch
  constructor
  · intro h
    by_cases hpre : (lowerChars pfx).isPrefixOf (lowerChars name) = true
    · rw [if_pos hpre] at h
      obtain ⟨u, hu⟩ : ∃ u, lowerChars pfx ++ u = lowerChars name :=
        List.isPrefixOf_iff_prefix.1 hpre
      have hdrop : (lowerChars name).drop (lowerChars pfx).length = u := by
        rw [← hu, List.drop_left]
      rw [hdrop] at h
      cases u with
      | nil => exact absurd h (by simp)
      | cons c r1 =>
        dsimp only at h
        by_cases hsep : (c == '-' || c == '_') = true
        · rw [if_pos hsep] at h
          by_cases hnum : (lowerChars num).isPrefixOf r1 = true
          · rw [if_pos hnum] at h
            obtain ⟨tail, htail⟩ : ∃ tail, lowerChars num ++ tail = r1 :=
              List.isPrefixOf_iff_prefix.1 hnum
            have hdrop2 : r1.drop (lowerChars num).length = tail := by
              rw [← htail, List.drop_left]
            rw [hdrop2] at h
            refine ⟨c, tail, ?_, ?_, (tailOk_iff tail).1 h⟩
            · rcases Bool.or_eq_true_iff.1 hsep with hx | hx
              · exact Or.inl (beq_iff_eq.1 hx)
              · exact Or.inr (beq_iff_eq.1 hx)
            · rw [← hu, ← htail]
          · rw [if_neg hnum] at h
            exact absurd h (by simp)
        · rw [if_neg hsep] at h
          exact absurd h (by simp)
    · rw [if_neg hpre] at h
      exact absurd h (by simp)
  · rintro ⟨s, tail, hs, hname, htail⟩
    have hpre : (lowerChars pfx).isPrefixOf (lowerChars name) = true := by
      rw [hname]
      exact isPrefixOf_append_self _ _
    rw [if_pos hpre]
    have hdrop : (lowerChars name).drop (lowerChars pfx).length
        = s :: (lowerChars num ++ tail) := by
      rw [hname, List.drop_left]
    rw [hdrop]
    dsimp only
    have hsep : (s == '-' || s == '_') = true := by
      rcases hs with rfl | rfl
      · simp
      · simp
    rw [if_pos hsep]
    have hnum : (lowerChars num).isPrefixOf (lowerChars num ++ tail) = true :=
      isPrefixOf_append_self _ _
    rw [if_pos hnum]
    have hdrop2 : (lowerChars num ++ tail).drop (lowerChars num).length = tail :=
      List.drop_left _ _
    rw [hdrop2]
    exact (tailOk_iff tail).2 htail

theorem childTicketHit_eq_some_iff (b : String) (bc : List String) (pfx num : Chars)
    (e : List String × Bool) (d : String) :
    childTicketHit b bc pfx num e = some d ↔
      e.2 = true ∧ ∃ n : String, e.1 = bc ++ [n] ∧ ticketDirMatch pfx num n.data = true ∧
        d = pjoin b n := by
  obtain ⟨p, flag⟩ := e
  unfold childTicketHit
  constructor
  · intro h
    cases flag with
    | false => exact absurd h (by simp)
    | true =>
      rw [if_pos rfl] at h
      by_cases hcond : p.length = bc.length + 1 ∧ bc.isPrefixOf p
      · rw [if_pos hcond] at h
        obtain ⟨hlen, hpref⟩ := hcond
        obtain ⟨t, ht⟩ : ∃ t, bc ++ t = p := List.isPrefixOf_iff_prefix.1 hpref
        have htlen : t.length = 1 := by
          have := congrArg List.length ht
          simp at this
          omega
        obtain ⟨x, rfl⟩ : ∃ x, t = [x] := List.length_eq_one.1 htlen
        have hget : p.getLastD "" = x := by
          rw [← ht]
          exact List.getLastD_concat _ _ _
        rw [hget] at h
        by_cases hm : ticketDirMatch pfx num x.data = true
        · rw [if_pos hm] at h
          refine ⟨rfl, x, ht.symm, hm, ?_⟩
          cases h
          rfl
        · rw [if_neg hm] at h
          exact absurd h (by simp)
      · rw [if_neg hcond] at h
        exact absurd h (by simp)
  · rintro ⟨hflag, n, hp, hm, rfl⟩
    have hflag2 : flag = true := hflag
    subst hflag2
    rw [if_pos rfl]
    have hp2 : p = bc ++ [n] := hp
    subst hp2
    rw [if_pos ⟨by simp, List.isPrefixOf_iff_prefix.2 ⟨[n], rfl⟩⟩]
    rw [List.getLastD_concat, if_pos hm]

theorem childTicketHit_none_no_match {b : String} {bc : List String} {pfx num : Chars}
    {e : List String × Bool} (h : childTicketHit b bc pfx num e = none)
    (he2 : e.2 = true) (n : String) (hn : e.1 = bc ++ [n]) :
    ticketDirMatch pfx num n.data = false := by
  by_contra hm
  have hm2 : ticketDirMatch pfx num n.data = true := eq_true_of_ne_false hm
  have h2 := (childTicketHit_eq_some_iff b bc pfx num e (pjoin b n)).2 ⟨he2, n, hn, hm2, rfl⟩
  rw [h] at h2
  exact Option.noConfusion h2

theorem pjoin_empty (b : String) : pjoin b "" = b := by
  simp [pjoin]

theorem prefixes_concat {fs : FS} {pc : List String} {x : String}
    (h : ∀ j, 0 < j → j ≤ pc.length → present fs (pc.take j) = true)
    (hx : present fs (pc ++ [x]) = true) :
    ∀ j, 0 < j → j ≤ (pc ++ [x]).length → present fs ((pc ++ [x]).take j) = true := by
  intro j hj1 hj2
  rcases Nat.lt_or_ge j (pc.length + 1) with hlt | hge
  · have hle : j ≤ pc.length := Nat.lt_succ_iff.1 hlt
    rw [List.take_append_of_le_length hle]
    exact h j hj1 hle
  · have hj : j = pc.length + 1 := by
      simp at hj2
      omega
    rw [hj, List.take_of_length_le (by simp)]
    exact hx

theorem create_ticket_directory_eq (env : Env) (cm : ConfigManager) (g : FS)
    (branch pfx num : String) (repoId : Option String) :
    create_ticket_directory env cm g branch pfx num repoId =
      (match (mkdirAll g (pathComponents (workspace_base_path env cm repoId))).findSome?
          (childTicketHit (workspace_base_path env cm repoId)
            (pathComponents (workspace_base_path env cm repoId)) pfx.data num.data) with
       | some e => (e, mkdirAll g (pathComponents (workspace_base_path env cm repoId)))
       | none =>
         (pjoin (workspace_base_path env cm repoId)
            (sanitize_directory_name env.isWindows branch),
          mkdirAll (mkdirAll g (pathComponents (workspace_base_path env cm repoId)))
            (pathComponents (pjoin (workspace_base_path env cm repoId)
              (sanitize_directory_name env.isWindows branch))))) := by
  unfold create_ticket_directory find_existing_ticket_dir get_workspace_base
  dsimp only
  rw [mkdirAll_mkdirAll g (pathComponents (workspace_base_path env cm repoId))]

theorem childTicketHit_concat (b : String) (bc : List String) (pfx num : Chars) (n : String) :
    childTicketHit b bc pfx num (bc ++ [n], true)
      = if ticketDirMatch pfx num n.data = true then some (pjoin b n) else none := by
  unfold childTicketHit
  dsimp only
  rw [if_pos rfl, if_pos ⟨by simp, List.isPrefixOf_iff_prefix.2 ⟨[n], rfl⟩⟩,
    List.getLastD_concat]

/-- C6.  `find_existing_ticket_dir` creates the workspace root and then
scans only its immediate children, in enumeration order: a `some` result
is the first child directory whose name matches the compiled pattern
(every earlier child directory fails to match), a `none` result means no
child directory matches, and the pattern accepts exactly the names of the
form `pfx[-_]num([-_].*)?` compared case-insensitively with the prefix
and number taken literally. -/
theorem claim6_find_existing (env : Env) (cm : ConfigManager) (fs : FS) (pfx num : String)
    (repoId : Option String) :
    (find_existing_ticket_dir env cm fs pfx num repoId).2
      = mkdirAll fs (pathComponents (workspace_base_path env cm repoId))
    ∧ (∀ d, (find_existing_ticket_dir env cm fs pfx num repoId).1 = some d →
      ∃ l1 e l2, mkdirAll fs (pathComponents (workspace_base_path env cm repoId))
          = l1 ++ e :: l2
        ∧ e.2 = true
        ∧ (∃ n : String, e.1 = pathComponents (workspace_base_path env cm repoId) ++ [n]
            ∧ ticketDirMatch pfx.data num.data n.data = true
            ∧ d = pjoin (workspace_base_path env cm repoId) n)
        ∧ (∀ e2 ∈ l1, e2.2 = true →
            ∀ n : String, e2.1 = pathComponents (workspace_base_path env cm repoId) ++ [n] →
              ticketDirMatch pfx.data num.data n.data = false))
    ∧ ((find_existing_ticket_dir env cm fs pfx num repoId).1 = none →
      ∀ e ∈ mkdirAll fs (pathComponents (workspace_base_path env cm repoId)), e.2 = true →
        ∀ n : String, e.1 = pathComponents (workspace_base_path env cm repoId) ++ [n] →
          ticketDirMatch pfx.data num.data n.data = false)
    ∧ (∀ nm : Chars, ticketDirMatch pfx.data num.data nm = true ↔
      ∃ s tail, (s = '-' ∨ s = '_') ∧
        lowerChars nm = lowerChars pfx.data ++ s :: (lowerChars num.data ++ tail) ∧
        (tail = [] ∨ tail = ['\n'] ∨ ∃ s2 rest, (s2 = '-' ∨ s2 = '_') ∧ tail = s2 :: rest ∧
          (rest.contains '\n' = false ∨
            ∃ t, rest = t ++ ['\n'] ∧ t.contains '\n' = false))) := by
  refine ⟨rfl, ?_, ?_, fun nm => ticketDirMatch_iff pfx.data num.data nm⟩
  · intro d hd
    have hd2 : (mkdirAll fs (pathComponents (workspace_base_path env cm repoId))).findSome?
        (childTicketHit (workspace_base_path env cm repoId)
          (pathComponents (workspace_base_path env cm repoId)) pfx.data num.data)
        = some d := hd
    obtain ⟨l1, e, l2, hsplit, hhit, hnone⟩ := findSome?_eq_some_split _ _ _ hd2
    obtain ⟨he2, n, hn, hm, hdn⟩ := (childTicketHit_eq_some_iff _ _ _ _ _ _).1 hhit
    exact ⟨l1, e, l2, hsplit, he2, ⟨n, hn, hm, hdn⟩,
      fun e2 he2m he22 n2 hn2 =>
        childTicketHit_none_no_match (hnone e2 he2m) he22 n2 hn2⟩
  · intro hd e hmem he2 n hn
    have hall := findSome?_eq_none_all _ _ hd
    exact childTicketHit_none_no_match (hall e hmem) he2 n hn

/-- Witness for C6: Scenario D.  With workspace root `/w` and an existing
child directory `JIRA-123-old-name`, searching for prefix `JIRA` and
number `123` returns that directory. -/
theorem claim6_find_existing_witness :
    (find_existing_ticket_dir ⟨"/h", false⟩
        ⟨[("default.paths", [("workspace_base", "/w")])], none⟩
        [(["/", "w"], true), (["/", "w", "JIRA-123-old-name"], true)]
        "JIRA" "123" none).1 = some "/w/JIRA-123-old-name"
    ∧ (ticketDirMatch "JIRA".data "123".data "jira_123-Feature".data = true
        ∧ ∃ s tail, (s = '-' ∨ s = '_') ∧
          lowerChars "jira_123-Feature".data
            = lowerChars "JIRA".data ++ s :: (lowerChars "123".data ++ tail) ∧
          (tail = [] ∨ tail = ['\n'] ∨
            ∃ s2 rest, (s2 = '-' ∨ s2 = '_') ∧ tail = s2 :: rest ∧
              (rest.contains '\n' = false ∨
                ∃ t, rest = t ++ ['\n'] ∧ t.contains '\n' = false))) := by
  refine ⟨by decide, by decide, ?_⟩
  exact ((claim6_find_existing ⟨"/h", false⟩
    ⟨[("default.paths", [("workspace_base", "/w")])], none⟩
    [(["/", "w"], true), (["/", "w", "JIRA-123-old-name"], true)]
    "JIRA" "123" none).2.2.2 "jira_123-Feature".data).1 (by decide)

/-- C3.  `create_ticket_directory` is idempotent: running it twice with the
same arguments yields the same directory and the same filesystem, so no
second directory is created.  When `find_existing_ticket_dir` finds a
matching directory the call returns exactly that directory with the
filesystem it found it in (no rename, no merge); only otherwise does it
create `workspace_base / sanitize_directory_name(branch_name)`, with every
parent of the new directory present afterwards.  The hypothesis that the
resolved workspace base is non-empty holds for every configuration (an
empty inherited value falls back to `~/tickets` or the home directory). -/
theorem claim3_create_idempotent (env : Env) (cm : ConfigManager) (fs : FS)
    (branch pfx num : String) (repoId : Option String)
    (hb : workspace_base_path env cm repoId ≠ "") :
    create_ticket_directory env cm
        (create_ticket_directory env cm fs branch pfx num repoId).2 branch pfx num repoId
      = create_ticket_directory env cm fs branch pfx num repoId
    ∧ (∀ e, (find_existing_ticket_dir env cm fs pfx num repoId).1 = some e →
        create_ticket_directory env cm fs branch pfx num repoId
          = (e, (find_existing_ticket_dir env cm fs pfx num repoId).2))
    ∧ ((find_existing_ticket_dir env cm fs pfx num repoId).1 = none →
        (create_ticket_directory env cm fs branch pfx num repoId).1
            = pjoin (workspace_base_path env cm repoId)
                (sanitize_directory_name env.isWindows branch)
          ∧ (create_ticket_directory env cm fs branch pfx num repoId).2
              = mkdirAll (find_existing_ticket_dir env cm fs pfx num repoId).2
                  (pathComponents
                    (create_ticket_directory env cm fs branch pfx num repoId).1)
          ∧ ∀ j, 0 < j →
              j ≤ (pathComponents
                    (create_ticket_directory env cm fs branch pfx num repoId).1).length →
              present (create_ticket_directory env cm fs branch pfx num repoId).2
                  ((pathComponents
                    (create_ticket_directory env cm fs branch pfx num repoId).1).take j)
                = true) := by
  have hfind : find_existing_ticket_dir env cm fs pfx num repoId
      = ((mkdirAll fs (pathComponents (workspace_base_path env cm repoId))).findSome?
          (childTicketHit (workspace_base_path env cm repoId)
            (pathComponents (workspace_base_path env cm repoId)) pfx.data num.data),
        mkdirAll fs (pathComponents (workspace_base_path env cm repoId))) := rfl
  cases hm : (mkdirAll fs (pathComponents (workspace_base_path env cm repoId))).findSome?
      (childTicketHit (workspace_base_path env cm repoId)
        (pathComponents (workspace_base_path env cm repoId)) pfx.data num.data) with
  | some e0 =>
    have hc1 : create_ticket_directory env cm fs branch pfx num repoId
        = (e0, mkdirAll fs (pathComponents (workspace_base_path env cm repoId))) := by
      rw [create_ticket_directory_eq, hm]
    refine ⟨?_, ?_, ?_⟩
    · rw [hc1]
      dsimp only
      rw [create_ticket_directory_eq,
        mkdirAll_mkdirAll fs (pathComponents (workspace_base_path env cm repoId)), hm]
    · intro e he
      rw [hfind] at he
      dsimp only at he
      rw [hm] at he
      have hee : e0 = e := by injection he
      subst hee
      rw [hc1, hfind]
    · intro hn
      rw [hfind] at hn
      dsimp only at hn
      rw [hm] at hn
      exact absurd hn (by simp)
  | none =>
    have hc1 : create_ticket_directory env cm fs branch pfx num repoId
        = (pjoin (workspace_base_path env cm repoId)
            (sanitize_directory_name env.isWindows branch),
          mkdirAll (mkdirAll fs (pathComponents (workspace_base_path env cm repoId)))
            (pathComponents (pjoin (workspace_base_path env cm repoId)
              (sanitize_directory_name env.isWindows branch)))) := by
      rw [create_ticket_directory_eq, hm]
    refine ⟨?_, ?_, ?_⟩
    · rw [hc1]
      dsimp only
      by_cases hsn : sanitize_directory_name env.isWindows branch = ""
      · rw [hsn, pjoin_empty,
          mkdirAll_mkdirAll fs (pathComponents (workspace_base_path env cm repoId)),
          create_ticket_directory_eq,
          mkdirAll_mkdirAll fs (pathComponents (workspace_base_path env cm repoId)), hm,
          hsn, pjoin_empty,
          mkdirAll_mkdirAll fs (pathComponents (workspace_base_path env cm repoId))]
      · have hpcd : pathComponents (pjoin (workspace_base_path env cm repoId)
            (sanitize_directory_name env.isWindows branch))
            = pathComponents (workspace_base_path env cm repoId)
              ++ [sanitize_directory_name env.isWindows branch] :=
          pathComponents_pjoin _ _ hb hsn
            (fun c hc => sanitizeDirChars_no_slash env.isWindows branch.data c hc)
        rw [hpcd]
        have hpref1 : ∀ j, 0 < j →
            j ≤ (pathComponents (workspace_base_path env cm repoId)).length →
            present (mkdirAll fs (pathComponents (workspace_base_path env cm repoId)))
              ((pathComponents (workspace_base_path env cm repoId)).take j) = true :=
          fun j hj1 hj2 => mkdirAll_post fs _ j hj1 hj2
        have hconcat : mkdirAll
            (mkdirAll fs (pathComponents (workspace_base_path env cm repoId)))
            (pathComponents (workspace_base_path env cm repoId)
              ++ [sanitize_directory_name env.isWindows branch])
            = addDir (mkdirAll fs (pathComponents (workspace_base_path env cm repoId)))
              (pathComponents (workspace_base_path env cm repoId)
                ++ [sanitize_directory_name env.isWindows branch]) :=
          mkdirAll_concat_of_prefixes _ hpref1
        rw [hconcat]
        by_cases hpres : present
            (mkdirAll fs (pathComponents (workspace_base_path env cm repoId)))
            (pathComponents (workspace_base_path env cm repoId)
              ++ [sanitize_directory_name env.isWindows branch]) = true
        · rw [addDir_of_present hpres, create_ticket_directory_eq,
            mkdirAll_mkdirAll fs (pathComponents (workspace_base_path env cm repoId)), hm,
            hpcd, hconcat, addDir_of_present hpres]
        · have haddeq : addDir
              (mkdirAll fs (pathComponents (workspace_base_path env cm repoId)))
              (pathComponents (workspace_base_path env cm repoId)
                ++ [sanitize_directory_name env.isWindows branch])
              = mkdirAll fs (pathComponents (workspace_base_path env cm repoId))
                ++ [(pathComponents (workspace_base_path env cm repoId)
                  ++ [sanitize_directory_name env.isWindows branch], true)] := by
            unfold addDir
            rw [if_neg hpres]
          rw [haddeq, create_ticket_directory_eq]
          have hstab2 : mkdirAll
              (mkdirAll fs (pathComponents (workspace_base_path env cm repoId))
                ++ [(pathComponents (workspace_base_path env cm repoId)
                  ++ [sanitize_directory_name env.isWindows branch], true)])
              (pathComponents (workspace_base_path env cm repoId))
              = mkdirAll fs (pathComponents (workspace_base_path env cm repoId))
                ++ [(pathComponents (workspace_base_path env cm repoId)
                  ++ [sanitize_directory_name env.isWindows branch], true)] :=
            mkdirAll_noop (fun j hj1 hj2 =>
              present_mono_append _ (mkdirAll_post fs _ j hj1 hj2))
          rw [hstab2]
          have hscan : (mkdirAll fs (pathComponents (workspace_base_path env cm repoId))
              ++ [(pathComponents (workspace_base_path env cm repoId)
                ++ [sanitize_directory_name env.isWindows branch], true)]).findSome?
              (childTicketHit (workspace_base_path env cm repoId)
                (pathComponents (workspace_base_path env cm repoId)) pfx.data num.data)
              = if ticketDirMatch pfx.data num.data
                  (sanitize_directory_name env.isWindows branch).data = true
                then some (pjoin (workspace_base_path env cm repoId)
                  (sanitize_directory_name env.isWindows branch))
                else none := by
            rw [findSome?_append, hm]
            simp only [Option.orElse]
            rw [List.findSome?, childTicketHit_concat]
            by_cases hmt : ticketDirMatch pfx.data num.data
                (sanitize_directory_name env.isWindows branch).data = true
            · rw [if_pos hmt]
            · rw [if_neg hmt]
              rfl
          rw [hscan]
          by_cases hmt : ticketDirMatch pfx.data num.data
              (sanitize_directory_name env.isWindows branch).data = true
          · rw [if_pos hmt]
          · rw [if_neg hmt, hpcd]
            have hself : present
                (mkdirAll fs (pathComponents (workspace_base_path env cm repoId))
                  ++ [(pathComponents (workspace_base_path env cm repoId)
                    ++ [sanitize_directory_name env.isWindows branch], true)])
                (pathComponents (workspace_base_path env cm repoId)
                  ++ [sanitize_directory_name env.isWindows branch]) = true := by
              rw [present_append]
              have h1 : present [(pathComponents (workspace_base_path env cm repoId)
                  ++ [sanitize_directory_name env.isWindows branch], true)]
                  (pathComponents (workspace_base_path env cm repoId)
                    ++ [sanitize_directory_name env.isWindows branch]) = true := by
                simp [present]
              rw [h1]
              simp
            have hall : ∀ j, 0 < j →
                j ≤ ((pathComponents (workspace_base_path env cm repoId))
                  ++ [sanitize_directory_name env.isWindows branch]).length →
                present (mkdirAll fs (pathComponents (workspace_base_path env cm repoId))
                  ++ [(pathComponents (workspace_base_path env cm repoId)
                    ++ [sanitize_directory_name env.isWindows branch], true)])
                  (((pathComponents (workspace_base_path env cm repoId))
                    ++ [sanitize_directory_name env.isWindows branch]).take j) = true :=
              prefixes_concat (fun j hj1 hj2 =>
                present_mono_append _ (mkdirAll_post fs _ j hj1 hj2)) hself
            rw [mkdirAll_noop hall]
    · intro e he
      rw [hfind] at he
      dsimp only at he
      rw [hm] at he
      exact absurd he (by simp)
    · intro _
      rw [hc1, hfind]
      dsimp only
      refine ⟨rfl, rfl, ?_⟩
      intro j hj1 hj2
      exact mkdirAll_post
        (mkdirAll fs (pathComponents (workspace_base_path env cm repoId))) _ j hj1 hj2

/-- Witness for C3: with workspace base `/w` on an empty filesystem,
creating the workspace for branch `feature-work` twice yields the same
directory and filesystem both times. -/
theorem claim3_create_idempotent_witness :
    workspace_base_path ⟨"/h", false⟩
        ⟨[("default.paths", [("workspace_base", "/w")])], none⟩ none ≠ ""
    ∧ create_ticket_directory ⟨"/h", false⟩
        ⟨[("default.paths", [("workspace_base", "/w")])], none⟩
        (create_ticket_directory ⟨"/h", false⟩
          ⟨[("default.paths", [("workspace_base", "/w")])], none⟩
          [] "feature-work" "JIRA" "123" none).2 "feature-work" "JIRA" "123" none
      = create_ticket_directory ⟨"/h", false⟩
          ⟨[("default.paths", [("workspace_base", "/w")])], none⟩
          [] "feature-work" "JIRA" "123" none :=
  ⟨by decide,
    (claim3_create_idempotent ⟨"/h", false⟩
      ⟨[("default.paths", [("workspace_base", "/w")])], none⟩
      [] "feature-work" "JIRA" "123" none (by decide)).1⟩

end GitSidecar
